import Mathlib

/-! aferos.FileStore over an afero filesystem

A shallow embedding of `filestore.go`.  `FileStore` wraps an `afero.Fs` and a
base path; every method joins its arguments with `filepath.Join` and delegates
to the filesystem.  The embedding has three layers.

* `filepath.Join` and `filepath.Clean` on strings, element by element.
* The methods of `afero.Fs` and `afero.File` as a record `AferoFs` of state
  transformers; the helpers `afero.Exists`, `afero.WriteFile`,
  `afero.ReadFile`, `afero.ReadDir` and `io.Copy` written over that record; and
  the methods of `FileStore` written over those, for any filesystem.
* `afero.NewOsFs`, the filesystem `NewFileStore` installs, as a tree of
  directories and regular files with the results of the system calls behind
  the `os` package: `ENOENT` for a missing name, `ENOTDIR` below a regular
  file, `EISDIR` for writing a directory, `ENOTEMPTY` for removing a directory
  that has entries.

What the tree leaves out: permissions and owners, hard and symbolic links,
special files, other processes, and the refusal of path names with a NUL
byte or beyond the length limits (`os.validName`).  The working directory of
the process is the root directory, and path names are resolved lexically.  A handle is the
resolved path it was opened on; every handle `FileStore` obtains is used for
one transfer from offset 0 while the file stays in place.

The statements about `FileStore` on the operating system's filesystem are about
`osStore basePath`, the store `NewFileStore basePath` returns, in any state of
the tree.
-/

namespace Aferos

/-! ## Errors and byte strings -/

/-- Content of a file, a Go `[]byte`. -/
abbrev Bytes := List UInt8

/-- Go `error` values that can reach a caller of `FileStore`: the errno of a
failed system call (the `*PathError` wrapper around it is dropped),
`io.ErrShortWrite`, and an error built by `fmt.Errorf`. -/
inductive GoError where
  | ENOENT
  | ENOTDIR
  | EISDIR
  | ENOTEMPTY
  | EEXIST
  | EACCES
  | EBUSY
  | EINVAL
  | EBADF
  | ENOSPC
  | EIO
  | ErrShortWrite
  | Errorf (msg : String)
  deriving DecidableEq, Repr

/-- The test `os.IsNotExist`: among the errno values only `ENOENT` is
"file does not exist". -/
def os.IsNotExist : GoError → Bool
  | .ENOENT => true
  | _ => false

/-- The error `Read` builds itself: `fmt.Errorf("文件未找到")`. -/
def errNotFound : GoError := .Errorf "文件未找到"

/-! ## filepath.Join and filepath.Clean -/

/-- The pieces of a path between its slashes, as `strings.Split(s, "/")`. -/
def splitSlash : List Char → List (List Char)
  | [] => [[]]
  | c :: cs =>
    match splitSlash cs with
    | [] => [[]]
    | w :: ws => if c = '/' then [] :: w :: ws else (c :: w) :: ws

/-- Path elements of a string. -/
def pathElems (s : String) : List String :=
  (splitSlash s.toList).map String.mk

/-- One pass of the loop of `filepath.Clean` over the path elements.  `out` is
the stack of real elements written so far (last one first) and `dd` the number of
leading `..` elements already written, which only a path that is not rooted has:
an empty element and `.` are skipped, `..` removes the last real element, or is
kept when there is none and the path is not rooted, and any other element is
written. -/
def cleanLoop (rooted : Bool) : List String → Nat → List String → Nat × List String
  | [], dd, out => (dd, out)
  | e :: es, dd, out =>
    if e = "" ∨ e = "." then cleanLoop rooted es dd out
    else if e = ".." then
      match out with
      | _ :: out1 => cleanLoop rooted es dd out1
      | [] => if rooted then cleanLoop rooted es dd [] else cleanLoop rooted es (dd + 1) []
    else cleanLoop rooted es dd (e :: out)

/-- Go `strings.Join(elems, "/")`. -/
def joinSlash : List String → String
  | [] => ""
  | [e] => e
  | e :: es => e ++ "/" ++ joinSlash es

/-- Go `filepath.Clean`: the shortest path name equivalent to `path` by purely
lexical processing; the empty string becomes `.`. -/
def filepath.Clean (path : String) : String :=
  let rooted := path.toList.head? = some '/'
  let r := cleanLoop rooted (pathElems path) 0 []
  let body := joinSlash (List.replicate r.1 ".." ++ r.2.reverse)
  if rooted then "/" ++ body
  else if body = "" then "." else body

/-- Go `filepath.Join`: the elements from the first non-empty one on are joined
with slashes and cleaned; when all are empty the result is empty. -/
def filepath.Join (elem : List String) : String :=
  match elem.dropWhile (fun e => e = "") with
  | [] => ""
  | es => filepath.Clean (joinSlash es)

/-- Go `strings.Contains(s, substr)`: `substr` starts at some position of `s`. -/
def strings.Contains (s substr : String) : Bool :=
  s.toList.tails.any (fun t => substr.toList.isPrefixOf t)

/-! ## The afero.Fs interface -/

/-- Go `os.FileInfo`, as far as it is used: name, directory bit and size. -/
structure FileInfo where
  Name : String
  IsDir : Bool
  Size : Nat
  deriving DecidableEq, Repr

/-- The flag word of `OpenFile`: access mode, `O_CREATE` and `O_TRUNC`. -/
structure OpenFlag where
  read : Bool
  write : Bool
  create : Bool
  trunc : Bool
  deriving DecidableEq, Repr

/-- Go `os.O_RDONLY`. -/
def os.O_RDONLY : OpenFlag := ⟨true, false, false, false⟩

/-- Go `os.O_WRONLY|os.O_CREATE|os.O_TRUNC`, the flags of `afero.WriteFile`. -/
def os.O_WRONLY_CREATE_TRUNC : OpenFlag := ⟨false, true, true, true⟩

/-- Go `os.O_RDWR|os.O_CREATE|os.O_TRUNC`, the flags of `Create`. -/
def os.O_RDWR_CREATE_TRUNC : OpenFlag := ⟨true, true, true, true⟩

/-- The methods of `afero.Fs` and `afero.File` that `FileStore` reaches, over a
filesystem state `σ` and a file handle type `φ`.  Every method returns its Go
result together with the state it leaves, also when it fails.  `ReadToEOF` is
the loop of `Read` calls that `bytes.Buffer.ReadFrom` and `io.Copy` run until
`io.EOF`: the bytes obtained and the error that stopped the loop, if any. -/
structure AferoFs (σ φ : Type) where
  MkdirAll : String → Nat → σ → Option GoError × σ
  Stat : String → σ → Except GoError FileInfo × σ
  Create : String → σ → Except GoError φ × σ
  Open : String → σ → Except GoError φ × σ
  OpenFile : String → OpenFlag → Nat → σ → Except GoError φ × σ
  Remove : String → σ → Option GoError × σ
  RemoveAll : String → σ → Option GoError × σ
  Close : φ → σ → Option GoError × σ
  Write : φ → Bytes → σ → (Nat × Option GoError) × σ
  ReadToEOF : φ → σ → (Bytes × Option GoError) × σ
  Readdir : φ → σ → Except GoError (List FileInfo) × σ

section Helpers

variable {σ φ : Type}

/-- Go `afero.Exists`: `Stat` succeeds gives `(true, nil)`, a not-exist error
gives `(false, nil)`, any other error gives `(false, err)`. -/
def afero.Exists (F : AferoFs σ φ) (path : String) (s : σ) : (Bool × Option GoError) × σ :=
  match F.Stat path s with
  | (.ok _, s1) => ((true, none), s1)
  | (.error err, s1) =>
    if os.IsNotExist err then ((false, none), s1) else ((false, some err), s1)

/-- Go `afero.WriteFile`: open with `O_WRONLY|O_CREATE|O_TRUNC`, write, close;
the first error among write, short write and close is returned. -/
def afero.WriteFile (F : AferoFs σ φ) (filename : String) (data : Bytes) (perm : Nat) (s : σ) :
    Option GoError × σ :=
  match F.OpenFile filename os.O_WRONLY_CREATE_TRUNC perm s with
  | (.error err, s1) => (some err, s1)
  | (.ok f, s1) =>
    match F.Write f data s1 with
    | ((n, err), s2) =>
      let err := if err = none ∧ n < data.length then some GoError.ErrShortWrite else err
      match F.Close f s2 with
      | (err1, s3) => (if err = none then err1 else err, s3)

/-- Go `afero.ReadFile`: open, read to the end, close (deferred, its error
dropped).  The `f.Stat()` call that only sizes the buffer is left out.  As in
Go, the bytes read so far are returned next to a read error. -/
def afero.ReadFile (F : AferoFs σ φ) (filename : String) (s : σ) :
    (Option Bytes × Option GoError) × σ :=
  match F.Open filename s with
  | (.error err, s1) => ((none, some err), s1)
  | (.ok f, s1) =>
    match F.ReadToEOF f s1 with
    | ((b, err), s2) => ((some b, err), (F.Close f s2).2)

/-- The order `byName` of `afero.ReadDir`: byte order of the names, which for
UTF-8 strings is the order of their code points. -/
def nameLess : List Char → List Char → Bool
  | _, [] => false
  | [], _ :: _ => true
  | a :: as, b :: bs => a.toNat < b.toNat || (a.toNat = b.toNat && nameLess as bs)

/-- Go `afero.ReadDir`: open the directory, `Readdir(-1)`, close, sort the
entries by name. -/
def afero.ReadDir (F : AferoFs σ φ) (dirname : String) (s : σ) :
    Except GoError (List FileInfo) × σ :=
  match F.Open dirname s with
  | (.error err, s1) => (.error err, s1)
  | (.ok f, s1) =>
    match F.Readdir f s1 with
    | (r, s2) =>
      let s3 := (F.Close f s2).2
      match r with
      | .error err => (.error err, s3)
      | .ok list =>
        (.ok (list.insertionSort (fun a b => !nameLess b.Name.toList a.Name.toList)), s3)

/-- Go `io.Copy(dst, src)`: the chunks read from `src` are written to `dst`
until `src` is at its end.  The chunks are taken together: one write of all the
bytes read, none when nothing was read.  A write error or short write comes
before the read error. -/
def io.Copy (F : AferoFs σ φ) (dst src : φ) (s : σ) : (Nat × Option GoError) × σ :=
  match F.ReadToEOF src s with
  | ((data, er), s1) =>
    if data = [] then ((0, er), s1)
    else
      match F.Write dst data s1 with
      | ((nw, ew), s2) =>
        if ew ≠ none then ((nw, ew), s2)
        else if nw ≠ data.length then ((nw, some GoError.ErrShortWrite), s2)
        else ((nw, er), s2)

end Helpers

/-! ## FileStore -/

/-- Go `type FileStore struct { Fs afero.Fs; BasePath string }`. -/
structure FileStore (σ φ : Type) where
  Fs : AferoFs σ φ
  BasePath : String

namespace FileStore

variable {σ φ : Type}

/-- Go `(*FileStore).CreateFile`: create the file unless the existence check
says it exists; the error of the check is dropped, and the handle `Create`
returns is neither used nor closed. -/
def CreateFile (fs : FileStore σ φ) (subDir fileName : String) (s : σ) : Option GoError × σ :=
  let filePath := filepath.Join [fs.BasePath, subDir, fileName]
  match afero.Exists fs.Fs filePath s with
  | ((true, _), s1) => (none, s1)
  | ((false, _), s1) =>
    match fs.Fs.Create filePath s1 with
    | (.error err, s2) => (some err, s2)
    | (.ok _, s2) => (none, s2)

/-- Go `(*FileStore).Write`: `MkdirAll` of the subdirectory with mode 0755, then
`afero.WriteFile` with mode 0644. -/
def Write (fs : FileStore σ φ) (subDir fileName : String) (data : Bytes) (s : σ) :
    Option GoError × σ :=
  match fs.Fs.MkdirAll (filepath.Join [fs.BasePath, subDir]) 0o755 s with
  | (some err, s1) => (some err, s1)
  | (none, s1) =>
    let filePath := filepath.Join [fs.BasePath, subDir, fileName]
    afero.WriteFile fs.Fs filePath data 0o644 s1

/-- Go `(*FileStore).Read`: the not-found error when the existence check says
the file is not there (the error of the check is dropped), else
`afero.ReadFile`. -/
def Read (fs : FileStore σ φ) (subDir fileName : String) (s : σ) :
    (Option Bytes × Option GoError) × σ :=
  let filePath := filepath.Join [fs.BasePath, subDir, fileName]
  match afero.Exists fs.Fs filePath s with
  | ((false, _), s1) => ((none, some errNotFound), s1)
  | ((true, _), s1) => afero.ReadFile fs.Fs filePath s1

/-- Go `(*FileStore).Delete`. -/
def Delete (fs : FileStore σ φ) (subDir fileName : String) (s : σ) : Option GoError × σ :=
  let filePath := filepath.Join [fs.BasePath, subDir, fileName]
  fs.Fs.Remove filePath s

/-- Go `(*FileStore).DeleteAll`. -/
def DeleteAll (fs : FileStore σ φ) (subDir : String) (s : σ) : Option GoError × σ :=
  let filePath := filepath.Join [fs.BasePath, subDir]
  fs.Fs.RemoveAll filePath s

/-- Go `(*FileStore).Exists`. -/
def Exists (fs : FileStore σ φ) (subDir fileName : String) (s : σ) :
    (Bool × Option GoError) × σ :=
  let filePath := filepath.Join [fs.BasePath, subDir, fileName]
  afero.Exists fs.Fs filePath s

/-- Go `(*FileStore).ListFiles`: the names of the entries `afero.ReadDir`
returns that contain `partialName`, in that order. -/
def ListFiles (fs : FileStore σ φ) (subDir partialName : String) (s : σ) :
    Except GoError (List String) × σ :=
  let dirPath := filepath.Join [fs.BasePath, subDir]
  match afero.ReadDir fs.Fs dirPath s with
  | (.error err, s1) => (.error err, s1)
  | (.ok files, s1) =>
    (.ok ((files.filter (fun file => strings.Contains file.Name partialName)).map
      (fun file => file.Name)), s1)

/-- Go `(*FileStore).CopyFile`: `MkdirAll(destFile)`, open the source under the
base path, create `Join(destFile, newFileName)`, `io.Copy`.  The deferred
`Close` calls run on return, the destination first, and their errors are
dropped. -/
def CopyFile (fs : FileStore σ φ) (srcFile destFile newFileName : String) (s : σ) :
    Option GoError × σ :=
  let srcFilePath := filepath.Join [fs.BasePath, srcFile]
  let destFilePath := destFile
  match fs.Fs.MkdirAll destFilePath 0o755 s with
  | (some err, s1) => (some err, s1)
  | (none, s1) =>
    match fs.Fs.Open srcFilePath s1 with
    | (.error err, s2) => (some err, s2)
    | (.ok src, s2) =>
      let name := filepath.Join [destFilePath, newFileName]
      match fs.Fs.Create name s2 with
      | (.error err, s3) => (some err, (fs.Fs.Close src s3).2)
      | (.ok dest, s3) =>
        match io.Copy fs.Fs dest src s3 with
        | ((_, err), s4) => (err, (fs.Fs.Close src (fs.Fs.Close dest s4).2).2)

end FileStore

/-! ## OsFs: the filesystem of the operating system -/

/-- A node of the directory tree: a regular file with its content, or a
directory with its entries.  An entry list stands for the directory that maps
each name to the first entry carrying it. -/
inductive Node where
  | file (data : Bytes)
  | dir (entries : List (String × Node))

/-- The entries of a directory. -/
abbrev Entries := List (String × Node)

/-- The state of the filesystem: the entries of the root directory. -/
abbrev Disk := Entries

/-- A resolved path: the names from the root directory down. -/
abbrev Path := List String

/-- The node a directory holds under `name`. -/
def getEntry : Entries → String → Option Node
  | [], _ => none
  | (k, v) :: es, name => if k = name then some v else getEntry es name

/-- Put `n` under `name`, in place of the entry of that name if there is one. -/
def setEntry : Entries → String → Node → Entries
  | [], name, n => [(name, n)]
  | (k, v) :: es, name, n => if k = name then (name, n) :: es else (k, v) :: setEntry es name n

/-- Remove the name from a directory. -/
def delEntry (es : Entries) (name : String) : Entries :=
  es.filter (fun e => e.1 ≠ name)

/-- The listing of a directory: each name once, with the first entry that
carries it. -/
def listEntries : List String → Entries → Entries
  | _, [] => []
  | seen, (k, v) :: es =>
    if k ∈ seen then listEntries seen es else (k, v) :: listEntries (k :: seen) es

/-- The node at a resolved path: `ENOENT` when a name on the way is missing,
`ENOTDIR` when the path goes on below a regular file. -/
def findAt : Path → Entries → Except GoError Node
  | [], es => .ok (.dir es)
  | c :: cs, es =>
    match getEntry es c with
    | none => .error .ENOENT
    | some (.dir sub) => findAt cs sub
    | some (.file d) =>
      match cs with
      | [] => .ok (.file d)
      | _ :: _ => .error .ENOTDIR

/-- Change the entry at a resolved path below the root: `f` sees what the
parent directory holds under the last name and answers with the node to put
there, with `none` to remove the name, or with an error.  The parent directory
must exist. -/
def alterAt (f : Option Node → Except GoError (Option Node)) : Path → Entries →
    Except GoError Entries
  | [], _ => .error .EBUSY
  | c :: cs, es =>
    match cs with
    | [] =>
      match f (getEntry es c) with
      | .error e => .error e
      | .ok none => .ok (delEntry es c)
      | .ok (some n) => .ok (setEntry es c n)
    | _ :: _ =>
      match getEntry es c with
      | none => .error .ENOENT
      | some (.file _) => .error .ENOTDIR
      | some (.dir sub) =>
        match alterAt f cs sub with
        | .error e => .error e
        | .ok sub1 => .ok (setEntry es c (.dir sub1))

/-- The effect of `os.MkdirAll` on the tree: every missing directory on the path
is created; `ENOTDIR` when a name on the path is a regular file. -/
def mkdirAllAt : Path → Entries → Except GoError Entries
  | [], es => .ok es
  | c :: cs, es =>
    match getEntry es c with
    | none =>
      match mkdirAllAt cs [] with
      | .error e => .error e
      | .ok sub1 => .ok (setEntry es c (.dir sub1))
    | some (.file _) => .error .ENOTDIR
    | some (.dir sub) =>
      match mkdirAllAt cs sub with
      | .error e => .error e
      | .ok sub1 => .ok (setEntry es c (.dir sub1))

/-- The path names the kernel takes: no NUL byte, at most 4095 bytes, and at
most 255 bytes in each element.  For any other name every call of the `os`
package fails with `EINVAL` or `ENAMETOOLONG` before the tree is looked at.
Those failures are outside the model, which resolves every name; a statement
whose content is the errno of a lookup, or the creation of an entry, assumes a
name of this kind. -/
def os.validName (name : String) : Bool :=
  !name.data.contains (Char.ofNat 0) && decide (name.utf8ByteSize < 4096) &&
    (pathElems name).all (fun e => decide (e.utf8ByteSize ≤ 255))

/-- Lexical resolution of path elements from the root directory: empty elements
and `.` are skipped and `..` drops the last name (at the root it stays at the
root).  `acc` holds the names so far, last one first. -/
def resolveLoop : List String → List String → List String
  | [], acc => acc
  | e :: es, acc =>
    if e = "" ∨ e = "." then resolveLoop es acc
    else if e = ".." then resolveLoop es acc.tail
    else resolveLoop es (e :: acc)

/-- The resolved path of a path name; the empty name does not resolve
(`ENOENT`).  The working directory is the root directory, so a relative name
is resolved from the root.  On the names `filepath.Clean` returns, where `..`
can only lead, this is the resolution the kernel does in a tree without
links; on a name that is not clean, such as a `destFile` of `CopyFile` with
`x/..` inside, the kernel also asks for `x` to exist, which is not modelled.
Every name is resolved, also one the kernel refuses: see `os.validName`. -/
def resolve (name : String) : Except GoError Path :=
  if name = "" then .error .ENOENT
  else .ok (resolveLoop (pathElems name) []).reverse

/-- An open file of `OsFs`: the file it was opened on and its access mode.
Every handle `FileStore` obtains is used for one transfer from offset 0. -/
structure OsFile where
  path : Path
  flag : OpenFlag

/-- The `os.FileInfo` of a node under a name. -/
def nodeInfo (name : String) : Node → FileInfo
  | .file d => ⟨name, false, d.length⟩
  | .dir _ => ⟨name, true, 0⟩

namespace OsFs

/-- Go `os.Stat`. -/
def Stat (name : String) (s : Disk) : Except GoError FileInfo × Disk :=
  match resolve name with
  | .error e => (.error e, s)
  | .ok p =>
    match findAt p s with
    | .error e => (.error e, s)
    | .ok n => (.ok (nodeInfo (p.getLastD "/") n), s)

/-- Go `os.MkdirAll`. -/
def MkdirAll (path : String) (_perm : Nat) (s : Disk) : Option GoError × Disk :=
  match resolve path with
  | .error e => (some e, s)
  | .ok p =>
    match mkdirAllAt p s with
    | .error e => (some e, s)
    | .ok s1 => (none, s1)

/-- Go `os.OpenFile`.  A directory can be opened for reading only (`EISDIR`
otherwise); an existing regular file is emptied under `O_TRUNC` with write
access; a missing file is created empty under `O_CREATE` when its parent
directory exists. -/
def OpenFile (name : String) (flag : OpenFlag) (_perm : Nat) (s : Disk) :
    Except GoError OsFile × Disk :=
  match resolve name with
  | .error e => (.error e, s)
  | .ok p =>
    match findAt p s with
    | .ok (.dir _) => if flag.write then (.error .EISDIR, s) else (.ok ⟨p, flag⟩, s)
    | .ok (.file _) =>
      if flag.trunc ∧ flag.write then
        match alterAt (fun _ => .ok (some (.file []))) p s with
        | .error e => (.error e, s)
        | .ok s1 => (.ok ⟨p, flag⟩, s1)
      else (.ok ⟨p, flag⟩, s)
    | .error e =>
      if flag.create ∧ e = .ENOENT then
        match alterAt (fun _ => .ok (some (.file []))) p s with
        | .error e1 => (.error e1, s)
        | .ok s1 => (.ok ⟨p, flag⟩, s1)
      else (.error e, s)

/-- Go `os.Open`: `OpenFile(name, O_RDONLY, 0)`. -/
def Open (name : String) (s : Disk) : Except GoError OsFile × Disk :=
  OpenFile name os.O_RDONLY 0 s

/-- Go `os.Create`: `OpenFile(name, O_RDWR|O_CREATE|O_TRUNC, 0666)`. -/
def Create (name : String) (s : Disk) : Except GoError OsFile × Disk :=
  OpenFile name os.O_RDWR_CREATE_TRUNC 0o666 s

/-- Go `os.Remove`: removes a regular file or an empty directory.  A directory
named by a path whose last element is `.` is refused with `EINVAL`, as `rmdir`
does, and the root directory cannot be removed (`EBUSY`). -/
def Remove (name : String) (s : Disk) : Option GoError × Disk :=
  match resolve name with
  | .error e => (some e, s)
  | .ok p =>
    match findAt p s with
    | .error e => (some e, s)
    | .ok (.file _) =>
      match alterAt (fun _ => .ok none) p s with
      | .error e => (some e, s)
      | .ok s1 => (none, s1)
    | .ok (.dir es) =>
      if (pathElems name).getLast? = some "." then (some .EINVAL, s)
      else if p.isEmpty then (some .EBUSY, s)
      else if es.isEmpty then
        match alterAt (fun _ => .ok none) p s with
        | .error e => (some e, s)
        | .ok s1 => (none, s1)
      else (some .ENOTEMPTY, s)

/-- Go `os.RemoveAll`: removes the path and everything below it.  The empty
path is ignored, a path whose last element is `.` is refused with `EINVAL`, and
the root directory is emptied but cannot be removed itself.  When the lookup of
the path fails with not-exist the result is `nil`; when it fails otherwise, as
with `ENOTDIR` below a regular file, that error is returned. -/
def RemoveAll (path : String) (s : Disk) : Option GoError × Disk :=
  if path = "" then (none, s)
  else if (pathElems path).getLast? = some "." then (some .EINVAL, s)
  else
    match resolve path with
    | .error e => (some e, s)
    | .ok [] => (some .EBUSY, [])
    | .ok (c :: cs) =>
      match findAt (c :: cs) s with
      | .error e => if os.IsNotExist e then (none, s) else (some e, s)
      | .ok _ =>
        match alterAt (fun _ => .ok none) (c :: cs) s with
        | .error e => (some e, s)
        | .ok s1 => (none, s1)

/-- Go `(*os.File).Close`. -/
def Close (_f : OsFile) (s : Disk) : Option GoError × Disk := (none, s)

/-- Go `(*os.File).Write` at offset 0: the bytes replace the start of the
content. -/
def Write (f : OsFile) (b : Bytes) (s : Disk) : (Nat × Option GoError) × Disk :=
  if f.flag.write then
    match alterAt (fun o =>
        match o with
        | some (.file old) => .ok (some (.file (b ++ old.drop b.length)))
        | _ => .error .EBADF) f.path s with
    | .error e => ((0, some e), s)
    | .ok s1 => ((b.length, none), s1)
  else ((0, some .EBADF), s)

/-- Reading a handle from offset 0 to the end of the file; `EISDIR` on a
directory. -/
def ReadToEOF (f : OsFile) (s : Disk) : (Bytes × Option GoError) × Disk :=
  if f.flag.read then
    match findAt f.path s with
    | .ok (.file d) => ((d, none), s)
    | .ok (.dir _) => (([], some .EISDIR), s)
    | .error _ => (([], some .EBADF), s)
  else (([], some .EBADF), s)

/-- Go `(*os.File).Readdir(-1)`: the entries of a directory, each name once. -/
def Readdir (f : OsFile) (s : Disk) : Except GoError (List FileInfo) × Disk :=
  match findAt f.path s with
  | .ok (.dir es) => (.ok ((listEntries [] es).map (fun e => nodeInfo e.1 e.2)), s)
  | .ok (.file _) => (.error .ENOTDIR, s)
  | .error _ => (.error .EBADF, s)

end OsFs

/-- Go `afero.NewOsFs()`. -/
def afero.NewOsFs : AferoFs Disk OsFile where
  MkdirAll := OsFs.MkdirAll
  Stat := OsFs.Stat
  Create := OsFs.Create
  Open := OsFs.Open
  OpenFile := OsFs.OpenFile
  Remove := OsFs.Remove
  RemoveAll := OsFs.RemoveAll
  Close := OsFs.Close
  Write := OsFs.Write
  ReadToEOF := OsFs.ReadToEOF
  Readdir := OsFs.Readdir

/-- Go `NewFileStore`: `MkdirAll(basePath, 0755)` on a new `OsFs`, then the
store over it. -/
def NewFileStore (basePath : String) (s : Disk) :
    Except GoError (FileStore Disk OsFile) × Disk :=
  let fs := afero.NewOsFs
  match fs.MkdirAll basePath 0o755 s with
  | (some err, s1) => (.error err, s1)
  | (none, s1) => (.ok { Fs := fs, BasePath := basePath }, s1)

/-! ## Observations of the state -/

/-- The store `NewFileStore` returns for a base path. -/
def osStore (basePath : String) : FileStore Disk OsFile :=
  { Fs := afero.NewOsFs, BasePath := basePath }

/-- What exists at a resolved path, if anything. -/
def lookupAt (p : Path) (s : Disk) : Option Node :=
  match findAt p s with
  | .ok n => some n
  | .error _ => none

/-- The content of the regular file at a resolved path, if there is one. -/
def fileAt (p : Path) (s : Disk) : Option Bytes :=
  match findAt p s with
  | .ok (.file d) => some d
  | _ => none

/-- Whether a directory is at a resolved path. -/
def isDirAt (p : Path) (s : Disk) : Bool :=
  match findAt p s with
  | .ok (.dir _) => true
  | _ => false

/-- The node a path name leads to, or the error of the lookup. -/
def nodeAt (name : String) (s : Disk) : Except GoError Node :=
  match resolve name with
  | .error e => .error e
  | .ok p => findAt p s

/-- A name that stands for an entry: not empty, not `.` and not `..`. -/
def realElem (e : String) : Prop := e ≠ "" ∧ e ≠ "." ∧ e ≠ ".."

instance (e : String) : Decidable (realElem e) := by
  unfold realElem
  infer_instance

/-- Nothing exists under a path name: the lookup fails. -/
def absentAt (name : String) (s : Disk) : Bool :=
  match nodeAt name s with
  | .ok _ => false
  | .error _ => true

/-- The listing `afero.ReadDir` returns for a directory with entries `es`: one
`FileInfo` for each name, sorted by name. -/
def dirListing (es : Entries) : List FileInfo :=
  ((listEntries [] es).map (fun e => nodeInfo e.1 e.2)).insertionSort
    (fun a b => !nameLess b.Name.toList a.Name.toList)

/-- The names `ListFiles` reports for a directory with entries `es`: the
names of the listing that contain `partialName`, in the order of the listing. -/
def listedNames (es : Entries) (partialName : String) : List String :=
  ((dirListing es).filter (fun file => strings.Contains file.Name partialName)).map
    (fun file => file.Name)

/-- The content of the regular file a path name leads to, if it leads to one. -/
def contentAt (name : String) (s : Disk) : Option Bytes :=
  match nodeAt name s with
  | .ok (.file d) => some d
  | _ => none

/-! ## Path names -/

theorem splitSlash_ne_nil (l : List Char) : splitSlash l ≠ [] := by
  cases l with
  | nil => simp [splitSlash]
  | cons c cs =>
    unfold splitSlash
    cases splitSlash cs with
    | nil => simp
    | cons w ws => by_cases h : c = '/' <;> simp [h]

theorem splitSlash_cons (c : Char) (cs : List Char) :
    ∃ w ws, splitSlash cs = w :: ws ∧
      splitSlash (c :: cs) = if c = '/' then [] :: w :: ws else (c :: w) :: ws := by
  cases h : splitSlash cs with
  | nil => exact absurd h (splitSlash_ne_nil cs)
  | cons w ws =>
    refine ⟨w, ws, rfl, ?_⟩
    conv => lhs; unfold splitSlash
    rw [h]

theorem splitSlash_append_slash (a b : List Char) :
    splitSlash (a ++ '/' :: b) = splitSlash a ++ splitSlash b := by
  induction a with
  | nil =>
    obtain ⟨w, ws, h1, h2⟩ := splitSlash_cons '/' b
    simp only [List.nil_append]
    rw [h2, h1]
    simp [splitSlash]
  | cons c a ih =>
    obtain ⟨w, ws, h1, h2⟩ := splitSlash_cons c (a ++ '/' :: b)
    obtain ⟨v, vs, k1, k2⟩ := splitSlash_cons c a
    rw [List.cons_append, h2, k2]
    rw [ih, k1] at h1
    simp only [List.cons_append, List.cons.injEq] at h1
    obtain ⟨hw, hws⟩ := h1
    subst hw hws
    by_cases hc : c = '/' <;> simp [hc]

theorem splitSlash_of_not_mem (w : List Char) (h : '/' ∉ w) : splitSlash w = [w] := by
  induction w with
  | nil => rfl
  | cons c cs ih =>
    obtain ⟨v, vs, k1, k2⟩ := splitSlash_cons c cs
    have hc : c ≠ '/' := by
      intro hc; apply h; simp [hc]
    have hcs : '/' ∉ cs := by
      intro hcs; apply h; simp [hcs]
    rw [ih hcs] at k1
    simp only [List.cons.injEq] at k1
    rw [k2, ← k1.1, ← k1.2]
    simp [hc]

theorem not_mem_of_mem_splitSlash (l : List Char) : ∀ w ∈ splitSlash l, '/' ∉ w := by
  induction l with
  | nil => intro w hw; simp [splitSlash] at hw; subst hw; simp
  | cons c cs ih =>
    obtain ⟨v, vs, k1, k2⟩ := splitSlash_cons c cs
    rw [k1] at ih
    intro w hw
    rw [k2] at hw
    by_cases hc : c = '/'
    · simp only [hc, if_true, List.mem_cons] at hw
      rcases hw with hw | hw | hw
      · subst hw; simp
      · exact ih w (by simp [hw])
      · exact ih w (by simp [hw])
    · simp only [hc, if_false, List.mem_cons] at hw
      rcases hw with hw | hw
      · subst hw
        intro hm
        simp only [List.mem_cons] at hm
        rcases hm with hm | hm
        · exact hc hm.symm
        · exact ih v (by simp) hm
      · exact ih w (by simp [hw])

/-- A string without a slash is its own single path element. -/
theorem pathElems_of_slashFree (e : String) (h : '/' ∉ e.data) : pathElems e = [e] := by
  unfold pathElems
  show List.map String.mk (splitSlash e.data) = [e]
  rw [splitSlash_of_not_mem _ h]
  rfl

theorem slashFree_of_mem_pathElems (s e : String) (h : e ∈ pathElems s) : '/' ∉ e.data := by
  unfold pathElems at h
  rw [List.mem_map] at h
  obtain ⟨w, hw, he⟩ := h
  subst he
  exact not_mem_of_mem_splitSlash _ w hw

theorem pathElems_append_slash (a b : String) :
    pathElems (a ++ "/" ++ b) = pathElems a ++ pathElems b := by
  unfold pathElems
  show List.map String.mk (splitSlash (a ++ "/" ++ b).data) = _
  rw [String.data_append, String.data_append]
  show List.map String.mk (splitSlash (a.data ++ ['/'] ++ b.data)) = _
  rw [List.append_assoc, List.singleton_append, splitSlash_append_slash, List.map_append]
  rfl

theorem pathElems_empty : pathElems "" = [""] := by decide

/-- The path elements of elements joined by slashes are the path elements of each
of them, one after the other. -/
theorem pathElems_joinSlash (es : List String) (hne : es ≠ []) :
    pathElems (joinSlash es) = es.flatMap pathElems := by
  induction es with
  | nil => exact absurd rfl hne
  | cons e rest ih =>
    cases rest with
    | nil => simp [joinSlash]
    | cons e2 rest2 =>
      have : joinSlash (e :: e2 :: rest2) = e ++ "/" ++ joinSlash (e2 :: rest2) := rfl
      rw [this, pathElems_append_slash, ih (by simp)]
      simp

theorem flatMap_pathElems_of_slashFree (es : List String) (h : ∀ e ∈ es, '/' ∉ e.data) :
    es.flatMap pathElems = es := by
  induction es with
  | nil => rfl
  | cons e rest ih =>
    rw [List.flatMap_cons, pathElems_of_slashFree e (h e (by simp)),
      ih (fun x hx => h x (by simp [hx]))]
    rfl

/-! ## Clean and the resolution of names -/

theorem resolveLoop_append (es fs : List String) : ∀ acc,
    resolveLoop (es ++ fs) acc = resolveLoop fs (resolveLoop es acc) := by
  induction es with
  | nil => intro acc; rfl
  | cons e es ih =>
    intro acc
    simp only [List.cons_append, resolveLoop]
    split
    · exact ih acc
    · split
      · exact ih _
      · exact ih _

theorem cleanLoop_snd (rooted : Bool) (es : List String) : ∀ dd out,
    (cleanLoop rooted es dd out).2 = resolveLoop es out := by
  induction es with
  | nil => intro dd out; rfl
  | cons e es ih =>
    intro dd out
    simp only [cleanLoop, resolveLoop]
    split
    · exact ih dd out
    · split
      · cases out with
        | nil =>
          cases rooted
          · simpa using ih (dd + 1) []
          · simpa using ih dd []
        | cons o out1 => simpa using ih dd out1
      · exact ih dd _

theorem resolveLoop_of_real (es : List String) (h : ∀ e ∈ es, realElem e) : ∀ acc,
    resolveLoop es acc = es.reverse ++ acc := by
  induction es with
  | nil => intro acc; rfl
  | cons e es ih =>
    intro acc
    obtain ⟨h1, h2, h3⟩ := h e (by simp)
    simp only [resolveLoop, h1, h2, h3, or_self, if_false]
    rw [ih (fun x hx => h x (by simp [hx]))]
    simp

theorem resolveLoop_real (es : List String) (hes : ∀ e ∈ es, '/' ∉ e.data) : ∀ acc,
    (∀ e ∈ acc, realElem e ∧ '/' ∉ e.data) →
    ∀ e ∈ resolveLoop es acc, realElem e ∧ '/' ∉ e.data := by
  induction es with
  | nil => intro acc hacc; exact hacc
  | cons x es ih =>
    intro acc hacc
    have hes1 : ∀ e ∈ es, '/' ∉ e.data := fun e he => hes e (by simp [he])
    simp only [resolveLoop]
    split
    · exact ih hes1 acc hacc
    · rename_i h1
      split
      · apply ih hes1
        intro e he
        exact hacc e (List.mem_of_mem_tail he)
      · rename_i h2
        apply ih hes1
        intro e he
        simp only [List.mem_cons] at he
        rcases he with he | he
        · subst he
          exact ⟨⟨fun h => h1 (Or.inl h), fun h => h1 (Or.inr h), h2⟩, hes e (by simp)⟩
        · exact hacc e he

theorem resolveLoop_dotdots (n : Nat) (es : List String) :
    resolveLoop (List.replicate n ".." ++ es) [] = resolveLoop es [] := by
  induction n with
  | zero => rfl
  | succ n ih =>
    rw [List.replicate_succ, List.cons_append]
    simp only [resolveLoop]
    simpa using ih

theorem pathElems_slash_append (b : String) : pathElems ("/" ++ b) = "" :: pathElems b := by
  have h := pathElems_append_slash "" b
  have e : ("" : String) ++ "/" = "/" := by decide
  rw [e, pathElems_empty] at h
  exact h

/-- The elements `Clean` writes resolve to the stack they were written from. -/
theorem resolveLoop_pathElems_body (dd : Nat) (out : List String)
    (hout : ∀ e ∈ out, realElem e ∧ '/' ∉ e.data) :
    resolveLoop (pathElems (joinSlash (List.replicate dd ".." ++ out.reverse))) [] = out := by
  by_cases hne : List.replicate dd ".." ++ out.reverse = []
  · rw [hne]
    simp only [List.append_eq_nil, List.reverse_eq_nil_iff] at hne
    rw [hne.2]
    decide
  · rw [pathElems_joinSlash _ hne, flatMap_pathElems_of_slashFree, resolveLoop_dotdots,
      resolveLoop_of_real]
    · simp
    · intro e he
      exact (hout e (by simpa using he)).1
    · intro e he
      simp only [List.mem_append, List.mem_replicate, List.mem_reverse] at he
      rcases he with he | he
      · rw [he.2]; decide
      · exact (hout e he).2

theorem Clean_ne_empty (path : String) : filepath.Clean path ≠ "" := by
  unfold filepath.Clean
  dsimp only
  split
  · intro h
    have := congrArg String.data h
    rw [String.data_append] at this
    simp at this
  · split
    · decide
    · assumption

/-- Lexical cleaning does not change what a name resolves to. -/
theorem resolve_Clean (path : String) :
    resolve (filepath.Clean path) = .ok (resolveLoop (pathElems path) []).reverse := by
  have hne := Clean_ne_empty path
  unfold resolve
  rw [if_neg hne]
  congr 2
  have hout : ∀ (rooted : Bool) e, e ∈ (cleanLoop rooted (pathElems path) 0 []).2 →
      realElem e ∧ '/' ∉ e.data := by
    intro rooted e he
    rw [cleanLoop_snd] at he
    exact resolveLoop_real _ (fun x hx => slashFree_of_mem_pathElems path x hx) []
      (by simp) e he
  unfold filepath.Clean
  dsimp only
  split
  · rw [pathElems_slash_append]
    have : ∀ l, resolveLoop ("" :: l) [] = resolveLoop l [] := by
      intro l; simp [resolveLoop]
    rw [this, resolveLoop_pathElems_body _ _ (hout _), cleanLoop_snd]
  · have key := resolveLoop_pathElems_body
      (cleanLoop (decide (path.toList.head? = some '/')) (pathElems path) 0 []).1
      (cleanLoop (decide (path.toList.head? = some '/')) (pathElems path) 0 []).2 (hout _)
    split
    · rename_i hb
      rw [hb] at key
      rw [← cleanLoop_snd (decide (path.toList.head? = some '/')) (pathElems path) 0 [], ← key]
      decide
    · rw [key, cleanLoop_snd]

theorem Join_all_empty (elem : List String) (h : ∀ e ∈ elem, e = "") :
    filepath.Join elem = "" := by
  unfold filepath.Join
  have : elem.dropWhile (fun e => decide (e = "")) = [] := by
    rw [List.dropWhile_eq_nil_iff]
    intro e he
    simp [h e he]
  rw [this]

/-- The resolved path of a join: the elements of all arguments, resolved one
after the other. -/
theorem resolve_Join (elem : List String) (h : ∃ e ∈ elem, e ≠ "") :
    resolve (filepath.Join elem) = .ok (resolveLoop (elem.flatMap pathElems) []).reverse := by
  induction elem with
  | nil => simp at h
  | cons e rest ih =>
    by_cases he : e = ""
    · subst he
      have h2 : ∃ e ∈ rest, e ≠ "" := by
        obtain ⟨x, hx, hxe⟩ := h
        simp only [List.mem_cons] at hx
        rcases hx with hx | hx
        · exact absurd hx hxe
        · exact ⟨x, hx, hxe⟩
      have hj : filepath.Join ("" :: rest) = filepath.Join rest := by
        unfold filepath.Join
        simp [List.dropWhile]
      rw [hj, ih h2, List.flatMap_cons, pathElems_empty]
      simp [resolveLoop]
    · have hj : filepath.Join (e :: rest) = filepath.Clean (joinSlash (e :: rest)) := by
        unfold filepath.Join
        simp [List.dropWhile, he]
      rw [hj, resolve_Clean, pathElems_joinSlash _ (by simp)]

theorem last_pathElems_body (dd : Nat) (out : List String)
    (hout : ∀ e ∈ out, realElem e ∧ '/' ∉ e.data) :
    (pathElems (joinSlash (List.replicate dd ".." ++ out.reverse))).getLast? ≠ some "." := by
  by_cases hne : List.replicate dd ".." ++ out.reverse = []
  · rw [hne]; decide
  · rw [pathElems_joinSlash _ hne, flatMap_pathElems_of_slashFree]
    · intro h
      have hm : "." ∈ List.replicate dd ".." ++ out.reverse := List.mem_of_mem_getLast? h
      simp only [List.mem_append, List.mem_replicate, List.mem_reverse] at hm
      rcases hm with hm | hm
      · exact absurd hm.2 (by decide)
      · exact (hout _ hm).1.2.1 rfl
    · intro e he
      simp only [List.mem_append, List.mem_replicate, List.mem_reverse] at he
      rcases he with he | he
      · rw [he.2]; decide
      · exact (hout e he).2

/-- A cleaned name whose last element is `.` is the name `.` itself, which resolves to
the directory the resolution starts from. -/
theorem Clean_last_dot (path : String)
    (h : (pathElems (filepath.Clean path)).getLast? = some ".") :
    resolve (filepath.Clean path) = .ok [] := by
  have hout : ∀ (rooted : Bool) e, e ∈ (cleanLoop rooted (pathElems path) 0 []).2 →
      realElem e ∧ '/' ∉ e.data := by
    intro rooted e he
    rw [cleanLoop_snd] at he
    exact resolveLoop_real _ (fun x hx => slashFree_of_mem_pathElems path x hx) []
      (by simp) e he
  unfold filepath.Clean at h ⊢
  dsimp only at h ⊢
  split at h
  · exfalso
    rw [pathElems_slash_append] at h
    rename_i hr
    simp only [hr, decide_True] at h
    have hb := last_pathElems_body (cleanLoop true (pathElems path) 0 []).1
      (cleanLoop true (pathElems path) 0 []).2 (hout true)
    cases hpe : pathElems (joinSlash
        (List.replicate (cleanLoop true (pathElems path) 0 []).1 ".." ++
          (cleanLoop true (pathElems path) 0 []).2.reverse)) with
    | nil =>
      rw [hpe] at h
      simp at h
    | cons a as =>
      rw [hpe] at h hb
      rw [List.getLast?_cons_cons] at h
      exact hb h
  · rename_i hr
    rw [if_neg hr]
    split at h
    · rename_i hb
      rw [if_pos hb]
      rfl
    · exfalso
      exact last_pathElems_body _ _ (hout _) h

theorem Join_eq_empty_or_Clean (elem : List String) :
    filepath.Join elem = "" ∨ ∃ y, filepath.Join elem = filepath.Clean y := by
  unfold filepath.Join
  split
  · left; rfl
  · right; exact ⟨_, rfl⟩

theorem resolveLoop_no_dotdot (es : List String) (h : ∀ e ∈ es, e ≠ "..") : ∀ acc,
    ∃ x, resolveLoop es acc = x ++ acc := by
  induction es with
  | nil => intro acc; exact ⟨[], rfl⟩
  | cons e es ih =>
    intro acc
    have h1 : ∀ x ∈ es, x ≠ ".." := fun x hx => h x (by simp [hx])
    simp only [resolveLoop, h e (by simp), if_false]
    split
    · exact ih h1 acc
    · obtain ⟨x, hx⟩ := ih h1 (e :: acc)
      exact ⟨x ++ [e], by rw [hx]; simp⟩

/-- A file name without `..` elements joined below a subdirectory resolves to a
path below the resolved subdirectory. -/
theorem resolve_Join_under (basePath subDir fileName : String)
    (hne : basePath ≠ "" ∨ subDir ≠ "") (hf : ∀ e ∈ pathElems fileName, e ≠ "..") :
    ∃ d r, resolve (filepath.Join [basePath, subDir]) = .ok d ∧
      resolve (filepath.Join [basePath, subDir, fileName]) = .ok (d ++ r) := by
  have h2 : ∃ e ∈ [basePath, subDir], e ≠ "" := by
    rcases hne with h | h
    · exact ⟨basePath, by simp, h⟩
    · exact ⟨subDir, by simp, h⟩
  have h3 : ∃ e ∈ [basePath, subDir, fileName], e ≠ "" := by
    obtain ⟨e, he, hee⟩ := h2
    exact ⟨e, by simp at he ⊢; tauto, hee⟩
  rw [resolve_Join _ h2, resolve_Join _ h3]
  have e3 : [basePath, subDir, fileName].flatMap pathElems =
      [basePath, subDir].flatMap pathElems ++ pathElems fileName := by simp
  rw [e3, resolveLoop_append]
  obtain ⟨x, hx⟩ := resolveLoop_no_dotdot (pathElems fileName) hf
    (resolveLoop ([basePath, subDir].flatMap pathElems) [])
  rw [hx]
  exact ⟨_, x.reverse, rfl, by simp⟩

/-- Names of entries joined below a base path resolve to the resolved base path
followed by those names. -/
theorem resolve_Join_real (basePath : String) (b : Path) (hb : resolve basePath = .ok b)
    (names : List String) (hreal : ∀ e ∈ names, realElem e ∧ '/' ∉ e.data) :
    resolve (filepath.Join (basePath :: names)) = .ok (b ++ names) := by
  have hne : basePath ≠ "" := by
    intro h; rw [h] at hb; simp [resolve] at hb
  unfold resolve at hb
  rw [if_neg hne] at hb
  simp only [Except.ok.injEq] at hb
  rw [resolve_Join _ ⟨basePath, by simp, hne⟩, List.flatMap_cons,
    flatMap_pathElems_of_slashFree names (fun e he => (hreal e he).2), resolveLoop_append,
    resolveLoop_of_real names (fun e he => (hreal e he).1)]
  rw [List.reverse_append, List.reverse_reverse, hb]

/-! ## Directory entries -/

theorem getEntry_setEntry_self (es : Entries) (c : String) (n : Node) :
    getEntry (setEntry es c n) c = some n := by
  induction es with
  | nil => simp [setEntry, getEntry]
  | cons e es ih =>
    obtain ⟨k, v⟩ := e
    by_cases h : k = c
    · simp [setEntry, getEntry, h]
    · simp [setEntry, getEntry, h, ih]

theorem getEntry_setEntry_ne (es : Entries) (c d : String) (n : Node) (h : d ≠ c) :
    getEntry (setEntry es c n) d = getEntry es d := by
  induction es with
  | nil => simp [setEntry, getEntry, Ne.symm h]
  | cons e es ih =>
    obtain ⟨k, v⟩ := e
    by_cases hk : k = c
    · subst hk
      simp [setEntry, getEntry, Ne.symm h]
    · by_cases hd : k = d
      · subst hd
        simp [setEntry, getEntry, hk]
      · simp [setEntry, getEntry, hk, hd, ih]

theorem getEntry_delEntry_self (es : Entries) (c : String) :
    getEntry (delEntry es c) c = none := by
  induction es with
  | nil => simp [delEntry, getEntry]
  | cons e es ih =>
    obtain ⟨k, v⟩ := e
    by_cases h : k = c
    · simpa [delEntry, List.filter, h] using ih
    · simpa [delEntry, List.filter, h, getEntry] using ih

theorem getEntry_delEntry_ne (es : Entries) (c d : String) (h : d ≠ c) :
    getEntry (delEntry es c) d = getEntry es d := by
  induction es with
  | nil => simp [delEntry, getEntry]
  | cons e es ih =>
    obtain ⟨k, v⟩ := e
    by_cases hk : k = c
    · subst hk
      simpa [delEntry, List.filter, getEntry, Ne.symm h] using ih
    · by_cases hd : k = d
      · subst hd
        simp [delEntry, List.filter, hk, getEntry]
      · simpa [delEntry, List.filter, hk, hd, getEntry] using ih

/-! ## Lookup in the tree -/

theorem findAt_nil (es : Entries) : findAt [] es = .ok (.dir es) := rfl

theorem findAt_single (es : Entries) (c : String) :
    findAt [c] es = (match getEntry es c with
      | none => .error .ENOENT
      | some n => .ok n) := by
  unfold findAt
  cases h : getEntry es c with
  | none => rfl
  | some n => cases n <;> simp [findAt]

theorem findAt_cons (es : Entries) (c : String) (cs : Path) :
    findAt (c :: cs) es = (match getEntry es c with
      | none => .error .ENOENT
      | some (.dir sub) => findAt cs sub
      | some (.file d) => if cs = [] then .ok (.file d) else .error .ENOTDIR) := by
  conv => lhs; unfold findAt
  cases h : getEntry es c with
  | none => rfl
  | some n =>
    cases n with
    | dir sub => rfl
    | file d => cases cs <;> simp

theorem findAt_error_cases (p : Path) : ∀ (s : Entries) (e : GoError),
    findAt p s = .error e → e = .ENOENT ∨ e = .ENOTDIR := by
  induction p with
  | nil => intro s e h; simp [findAt] at h
  | cons c cs ih =>
    intro s e h
    rw [findAt_cons] at h
    cases hg : getEntry s c with
    | none => rw [hg] at h; simp at h; exact Or.inl h.symm
    | some n =>
      rw [hg] at h
      cases n with
      | dir sub => exact ih sub e h
      | file d =>
        by_cases hcs : cs = []
        · simp [hcs] at h
        · simp [hcs] at h; exact Or.inr h.symm

theorem findAt_append (p r : Path) : ∀ (s : Entries),
    findAt (p ++ r) s = (match findAt p s with
      | .ok (.dir es) => findAt r es
      | .ok (.file d) => if r = [] then .ok (.file d) else .error .ENOTDIR
      | .error e => .error e) := by
  induction p with
  | nil => intro s; simp [findAt]
  | cons c cs ih =>
    intro s
    rw [List.cons_append, findAt_cons, findAt_cons]
    cases hg : getEntry s c with
    | none => rfl
    | some n =>
      cases n with
      | dir sub => exact ih sub
      | file d =>
        by_cases hcs : cs = []
        · subst hcs; simp
        · simp [hcs]

theorem findAt_cons_of_dir {s sub : Entries} {c : String} (h : getEntry s c = some (.dir sub))
    (r : Path) : findAt (c :: r) s = findAt r sub := by
  rw [findAt_cons, h]

theorem findAt_setEntry_self_dir (s sub : Entries) (c : String) (r : Path) :
    findAt (c :: r) (setEntry s c (.dir sub)) = findAt r sub :=
  findAt_cons_of_dir (getEntry_setEntry_self s c _) r

theorem findAt_setEntry_ne (s : Entries) (c d : String) (n : Node) (r : Path) (h : d ≠ c) :
    findAt (d :: r) (setEntry s c n) = findAt (d :: r) s := by
  rw [findAt_cons, findAt_cons, getEntry_setEntry_ne s c d n h]

theorem findAt_delEntry_ne (s : Entries) (c d : String) (r : Path) (h : d ≠ c) :
    findAt (d :: r) (delEntry s c) = findAt (d :: r) s := by
  rw [findAt_cons, findAt_cons, getEntry_delEntry_ne s c d h]

theorem lookupAt_single (es : Entries) (c : String) : lookupAt [c] es = getEntry es c := by
  unfold lookupAt
  rw [findAt_single]
  cases getEntry es c <;> rfl

/-! ## Changing one entry -/

theorem alterAt_single (f : Option Node → Except GoError (Option Node)) (es : Entries)
    (c : String) :
    alterAt f [c] es = (match f (getEntry es c) with
      | .error e => .error e
      | .ok none => .ok (delEntry es c)
      | .ok (some n) => .ok (setEntry es c n)) := rfl

theorem alterAt_cons_cons (f : Option Node → Except GoError (Option Node)) (es : Entries)
    (c d : String) (cs : Path) :
    alterAt f (c :: d :: cs) es = (match getEntry es c with
      | none => .error .ENOENT
      | some (.file _) => .error .ENOTDIR
      | some (.dir sub) =>
        match alterAt f (d :: cs) sub with
        | .error e => .error e
        | .ok sub1 => .ok (setEntry es c (.dir sub1))) := rfl

/-- After a successful change at `p` the node at `p` is the one `f` answered
with, and `f` was asked about what was at `p` before. -/
theorem findAt_alterAt_self (f : Option Node → Except GoError (Option Node)) :
    ∀ (p : Path) (s s1 : Entries), alterAt f p s = .ok s1 →
      ∃ r, f (lookupAt p s) = .ok r ∧
        findAt p s1 = (match r with
          | some n => .ok n
          | none => .error .ENOENT) := by
  intro p
  induction p with
  | nil => intro s s1 h; simp [alterAt] at h
  | cons c cs ih =>
    intro s s1 h
    cases cs with
    | nil =>
      rw [alterAt_single] at h
      cases hf : f (getEntry s c) with
      | error e => rw [hf] at h; simp at h
      | ok r =>
        rw [hf] at h
        cases r with
        | none =>
          simp at h
          subst h
          exact ⟨none, by rw [lookupAt_single]; exact hf,
            by rw [findAt_single, getEntry_delEntry_self]⟩
        | some n =>
          simp at h
          subst h
          exact ⟨some n, by rw [lookupAt_single]; exact hf,
            by rw [findAt_single, getEntry_setEntry_self]⟩
    | cons d ds =>
      rw [alterAt_cons_cons] at h
      cases hg : getEntry s c with
      | none => rw [hg] at h; simp at h
      | some n =>
        rw [hg] at h
        cases n with
        | file b => simp at h
        | dir sub =>
          dsimp only at h
          cases ha : alterAt f (d :: ds) sub with
          | error e => rw [ha] at h; simp at h
          | ok sub1 =>
            rw [ha] at h
            simp at h
            subst h
            obtain ⟨r, hr1, hr2⟩ := ih sub sub1 ha
            refine ⟨r, ?_, ?_⟩
            · have : lookupAt (c :: d :: ds) s = lookupAt (d :: ds) sub := by
                unfold lookupAt; rw [findAt_cons_of_dir hg]
              rw [this]; exact hr1
            · rw [findAt_setEntry_self_dir]; exact hr2

/-- A change that puts a regular file at a place that held no directory leaves
every other regular file and every directory as it was. -/
theorem alterAt_file_frame (f : Option Node → Except GoError (Option Node))
    (hf : ∀ o r, f o = .ok r → ∃ d, r = some (.file d)) :
    ∀ (p : Path) (s s1 : Entries), alterAt f p s = .ok s1 → isDirAt p s = false →
      ∀ q, (q ≠ p → fileAt q s1 = fileAt q s) ∧ isDirAt q s1 = isDirAt q s := by
  intro p
  induction p with
  | nil => intro s s1 h; simp [alterAt] at h
  | cons c cs ih =>
    intro s s1 h hnd q
    cases cs with
    | nil =>
      rw [alterAt_single] at h
      cases hfo : f (getEntry s c) with
      | error e => rw [hfo] at h; simp at h
      | ok r =>
        obtain ⟨d, hd⟩ := hf _ _ hfo
        subst hd
        rw [hfo] at h
        simp at h
        subst h
        cases q with
        | nil => simp [fileAt, isDirAt, findAt]
        | cons k r =>
          by_cases hk : k = c
          · subst hk
            have h1 : findAt (k :: r) (setEntry s k (.file d)) =
                (if r = [] then .ok (.file d) else .error .ENOTDIR) := by
              rw [findAt_cons, getEntry_setEntry_self]
            have h2 : ∀ es, getEntry s k ≠ some (.dir es) := by
              intro es hes
              have : isDirAt [k] s = true := by
                unfold isDirAt; rw [findAt_single, hes]
              rw [this] at hnd; simp at hnd
            have h3 : isDirAt (k :: r) s = false ∧ (r ≠ [] → fileAt (k :: r) s = none) := by
              unfold isDirAt fileAt
              rw [findAt_cons]
              cases hg : getEntry s k with
              | none => simp
              | some n =>
                cases n with
                | dir es => exact absurd hg (h2 es)
                | file b => by_cases hr : r = [] <;> simp [hr]
            constructor
            · intro hq
              have hr : r ≠ [] := by
                intro hr; apply hq; rw [hr]
              rw [h3.2 hr]
              unfold fileAt; rw [h1]; simp [hr]
            · rw [h3.1]
              unfold isDirAt; rw [h1]
              by_cases hr : r = [] <;> simp [hr]
          · unfold fileAt isDirAt
            rw [findAt_setEntry_ne s c k _ r hk]
            simp
    | cons d ds =>
      rw [alterAt_cons_cons] at h
      cases hg : getEntry s c with
      | none => rw [hg] at h; simp at h
      | some n =>
        rw [hg] at h
        cases n with
        | file b => simp at h
        | dir sub =>
          dsimp only at h
          cases ha : alterAt f (d :: ds) sub with
          | error e => rw [ha] at h; simp at h
          | ok sub1 =>
            rw [ha] at h
            simp at h
            subst h
            have hnd1 : isDirAt (d :: ds) sub = false := by
              have : isDirAt (c :: d :: ds) s = isDirAt (d :: ds) sub := by
                unfold isDirAt; rw [findAt_cons_of_dir hg]
              rw [← this]; exact hnd
            cases q with
            | nil => simp [fileAt, isDirAt, findAt]
            | cons k r =>
              by_cases hk : k = c
              · subst hk
                have e1 : findAt (k :: r) (setEntry s k (.dir sub1)) = findAt r sub1 :=
                  findAt_setEntry_self_dir s sub1 k r
                have e2 : findAt (k :: r) s = findAt r sub := findAt_cons_of_dir hg r
                obtain ⟨i1, i2⟩ := ih sub sub1 ha hnd1 r
                constructor
                · intro hq
                  have hr : r ≠ d :: ds := by
                    intro hr; apply hq; rw [hr]
                  have := i1 hr
                  unfold fileAt at this ⊢
                  rw [e1, e2]; exact this
                · unfold isDirAt at i2 ⊢
                  rw [e1, e2]; exact i2
              · unfold fileAt isDirAt
                rw [findAt_setEntry_ne s c k _ r hk]
                simp

theorem fileAt_nil_disk (r : Path) : fileAt r [] = none := by
  cases r <;> simp [fileAt, findAt, getEntry]

theorem mkdirAllAt_cons (c : String) (cs : Path) (es : Entries) :
    mkdirAllAt (c :: cs) es = (match getEntry es c with
      | none =>
        match mkdirAllAt cs [] with
        | .error e => .error e
        | .ok sub1 => .ok (setEntry es c (.dir sub1))
      | some (.file _) => .error .ENOTDIR
      | some (.dir sub) =>
        match mkdirAllAt cs sub with
        | .error e => .error e
        | .ok sub1 => .ok (setEntry es c (.dir sub1))) := rfl

/-- What `mkdirAllAt` does: the path is a directory afterwards, no regular file
changes, no directory disappears, and a directory that is new stands where
nothing was, on the path that was asked for. -/
theorem mkdirAllAt_spec : ∀ (p : Path) (s s1 : Entries), mkdirAllAt p s = .ok s1 →
    isDirAt p s1 = true ∧
    ∀ q, fileAt q s1 = fileAt q s ∧ (isDirAt q s = true → isDirAt q s1 = true) ∧
      (isDirAt q s1 = true → isDirAt q s = false → lookupAt q s = none ∧ q <+: p) := by
  intro p
  induction p with
  | nil =>
    intro s s1 h
    simp [mkdirAllAt] at h
    subst h
    refine ⟨by simp [isDirAt, findAt], fun q => ⟨rfl, id, ?_⟩⟩
    intro h1 h2; rw [h1] at h2; simp at h2
  | cons c cs ih =>
    intro s s1 h
    rw [mkdirAllAt_cons] at h
    cases hg : getEntry s c with
    | none =>
      rw [hg] at h
      dsimp only at h
      cases hm : mkdirAllAt cs [] with
      | error e => rw [hm] at h; simp at h
      | ok sub1 =>
        rw [hm] at h
        simp at h
        subst h
        obtain ⟨i0, i1⟩ := ih [] sub1 hm
        refine ⟨by unfold isDirAt at i0 ⊢; rw [findAt_setEntry_self_dir]; exact i0, ?_⟩
        intro q
        cases q with
        | nil =>
          refine ⟨by simp [fileAt, findAt], by simp [isDirAt, findAt], ?_⟩
          intro _ h2; simp [isDirAt, findAt] at h2
        | cons k r =>
          by_cases hk : k = c
          · subst hk
            have e1 : findAt (k :: r) (setEntry s k (.dir sub1)) = findAt r sub1 :=
              findAt_setEntry_self_dir s sub1 k r
            have e2 : findAt (k :: r) s = .error .ENOENT := by rw [findAt_cons, hg]
            obtain ⟨j1, _, j3⟩ := i1 r
            refine ⟨?_, ?_, ?_⟩
            · have : fileAt r sub1 = none := by rw [j1, fileAt_nil_disk]
              unfold fileAt at this ⊢
              rw [e1, e2]; exact this
            · intro h1; unfold isDirAt at h1; rw [e2] at h1; simp at h1
            · intro h1 _
              refine ⟨by unfold lookupAt; rw [e2], ?_⟩
              have h1r : isDirAt r sub1 = true := by
                unfold isDirAt at h1 ⊢; rw [e1] at h1; exact h1
              have hr : r <+: cs := by
                cases r with
                | nil => exact List.nil_prefix
                | cons a as =>
                  have : isDirAt (a :: as) [] = false := by
                    simp [isDirAt, findAt, getEntry]
                  exact (j3 h1r this).2
              exact (List.cons_prefix_cons).2 ⟨rfl, hr⟩
          · unfold fileAt isDirAt
            rw [findAt_setEntry_ne s c k _ r hk]
            refine ⟨rfl, id, ?_⟩
            intro h1 h2; rw [h1] at h2; simp at h2
    | some n =>
      rw [hg] at h
      cases n with
      | file b => simp at h
      | dir sub =>
        dsimp only at h
        cases hm : mkdirAllAt cs sub with
        | error e => rw [hm] at h; simp at h
        | ok sub1 =>
          rw [hm] at h
          simp at h
          subst h
          obtain ⟨i0, i1⟩ := ih sub sub1 hm
          refine ⟨by unfold isDirAt at i0 ⊢; rw [findAt_setEntry_self_dir]; exact i0, ?_⟩
          intro q
          cases q with
          | nil =>
            refine ⟨by simp [fileAt, findAt], by simp [isDirAt, findAt], ?_⟩
            intro _ h2; simp [isDirAt, findAt] at h2
          | cons k r =>
            by_cases hk : k = c
            · subst hk
              have e1 : findAt (k :: r) (setEntry s k (.dir sub1)) = findAt r sub1 :=
                findAt_setEntry_self_dir s sub1 k r
              have e2 : findAt (k :: r) s = findAt r sub := findAt_cons_of_dir hg r
              obtain ⟨j1, j2, j3⟩ := i1 r
              unfold fileAt at j1
              unfold isDirAt at j2 j3
              unfold lookupAt at j3
              unfold fileAt isDirAt lookupAt
              rw [e1, e2]
              refine ⟨j1, j2, ?_⟩
              intro h1 h2
              obtain ⟨k1, k2⟩ := j3 h1 h2
              exact ⟨k1, (List.cons_prefix_cons).2 ⟨rfl, k2⟩⟩
            · unfold fileAt isDirAt
              rw [findAt_setEntry_ne s c k _ r hk]
              refine ⟨rfl, id, ?_⟩
              intro h1 h2; rw [h1] at h2; simp at h2

/-- A change below a directory that exists goes through when `f` accepts. -/
theorem alterAt_ok_of_parent (f : Option Node → Except GoError (Option Node)) :
    ∀ (p : Path) (s : Entries), p ≠ [] → isDirAt p.dropLast s = true →
      ∀ r, f (lookupAt p s) = .ok r → ∃ s1, alterAt f p s = .ok s1 := by
  intro p
  induction p with
  | nil => intro s h; exact absurd rfl h
  | cons c cs ih =>
    intro s _ hd r hr
    cases cs with
    | nil =>
      rw [lookupAt_single] at hr
      rw [alterAt_single, hr]
      cases r with
      | none => exact ⟨_, rfl⟩
      | some n => exact ⟨_, rfl⟩
    | cons d ds =>
      rw [List.dropLast_cons₂] at hd
      rw [alterAt_cons_cons]
      unfold isDirAt at hd
      rw [findAt_cons] at hd
      cases hg : getEntry s c with
      | none => rw [hg] at hd; simp at hd
      | some n =>
        rw [hg] at hd
        cases n with
        | file b =>
          by_cases hx : (d :: ds).dropLast = [] <;> simp [hx] at hd
        | dir sub =>
          dsimp only at hd ⊢
          have hl : lookupAt (c :: d :: ds) s = lookupAt (d :: ds) sub := by
            unfold lookupAt; rw [findAt_cons_of_dir hg]
          rw [hl] at hr
          obtain ⟨sub1, h1⟩ := ih sub (by simp) (by unfold isDirAt; exact hd) r hr
          rw [h1]
          exact ⟨_, rfl⟩

/-- A change below a place that is not a directory fails with the error the
lookup of the path gives, whatever `f` is. -/
theorem alterAt_error_of_parent (f : Option Node → Except GoError (Option Node)) :
    ∀ (p : Path) (s : Entries), p ≠ [] → isDirAt p.dropLast s = false →
      ∃ e, alterAt f p s = .error e ∧ findAt p s = .error e := by
  intro p
  induction p with
  | nil => intro s h; exact absurd rfl h
  | cons c cs ih =>
    intro s _ hd
    cases cs with
    | nil => simp [isDirAt, findAt] at hd
    | cons d ds =>
      rw [List.dropLast_cons₂] at hd
      rw [alterAt_cons_cons, findAt_cons]
      unfold isDirAt at hd
      rw [findAt_cons] at hd
      cases hg : getEntry s c with
      | none => exact ⟨_, rfl, rfl⟩
      | some n =>
        rw [hg] at hd
        cases n with
        | file b => exact ⟨.ENOTDIR, rfl, by simp⟩
        | dir sub =>
          dsimp only at hd ⊢
          obtain ⟨e, h1, h2⟩ := ih sub (by simp) (by unfold isDirAt; exact hd)
          rw [h1, h2]
          exact ⟨e, rfl, rfl⟩

/-- Whatever exists below the root has a directory as its parent. -/
theorem isDirAt_parent_of_found : ∀ (p : Path) (s : Entries) (n : Node), p ≠ [] →
    findAt p s = .ok n → isDirAt p.dropLast s = true := by
  intro p
  induction p with
  | nil => intro s n h; exact absurd rfl h
  | cons c cs ih =>
    intro s n _ hf
    cases cs with
    | nil => simp [isDirAt, findAt]
    | cons d ds =>
      rw [List.dropLast_cons₂]
      rw [findAt_cons] at hf
      unfold isDirAt
      rw [findAt_cons]
      cases hg : getEntry s c with
      | none => rw [hg] at hf; simp at hf
      | some m =>
        rw [hg] at hf
        cases m with
        | file b => simp at hf
        | dir sub =>
          dsimp only at hf ⊢
          have := ih sub n (by simp) hf
          unfold isDirAt at this
          exact this

theorem ne_nil_of_fileAt {p : Path} {s : Entries} {d : Bytes}
    (h : findAt p s = .ok (.file d)) : p ≠ [] := by
  intro hp; subst hp; simp [findAt] at h

/-! ## The operations of OsFs -/

theorem exists_eq (name : String) (s : Disk) :
    afero.Exists afero.NewOsFs name s =
      ((match nodeAt name s with
        | .ok _ => (true, none)
        | .error e => if os.IsNotExist e then (false, none) else (false, some e)), s) := by
  unfold afero.Exists afero.NewOsFs OsFs.Stat nodeAt
  cases hres : resolve name with
  | error e => by_cases he : os.IsNotExist e = true <;> simp [he, hres]
  | ok p =>
    cases hf : findAt p s with
    | error e => by_cases he : os.IsNotExist e = true <;> simp [he, hres, hf]
    | ok n => simp [hres, hf]

theorem open_eq (name : String) (s : Disk) :
    OsFs.Open name s =
      ((match resolve name with
        | .error e => .error e
        | .ok p =>
          match findAt p s with
          | .error e => .error e
          | .ok _ => .ok ⟨p, os.O_RDONLY⟩), s) := by
  unfold OsFs.Open OsFs.OpenFile
  cases hres : resolve name with
  | error e => simp [hres]
  | ok p =>
    cases hf : findAt p s with
    | error e => simp [os.O_RDONLY, hres, hf]
    | ok n => cases n <;> simp [os.O_RDONLY, hres, hf]

theorem readFile_eq (name : String) (s : Disk) :
    afero.ReadFile afero.NewOsFs name s =
      ((match nodeAt name s with
        | .error e => (none, some e)
        | .ok (.file d) => (some d, none)
        | .ok (.dir _) => (some [], some .EISDIR)), s) := by
  unfold afero.ReadFile afero.NewOsFs nodeAt
  dsimp only
  rw [open_eq]
  cases hres : resolve name with
  | error e => simp [hres]
  | ok p =>
    cases hf : findAt p s with
    | error e => simp [hres, hf]
    | ok n =>
      cases n <;> simp [OsFs.ReadToEOF, OsFs.Close, os.O_RDONLY, hf, hres]

/-- Opening with write access, `O_CREATE` and `O_TRUNC`: a failure leaves the
state alone; on success the path holds an empty regular file, it held no
directory, and nothing else changed. -/
theorem openFile_create_trunc (name : String) (flag : OpenFlag) (perm : Nat) (s : Disk)
    (hw : flag.write = true) (hc : flag.create = true) (ht : flag.trunc = true) :
    (∀ e s1, OsFs.OpenFile name flag perm s = (.error e, s1) → s1 = s) ∧
    (∀ h s1, OsFs.OpenFile name flag perm s = (.ok h, s1) →
      ∃ p, resolve name = .ok p ∧ h = ⟨p, flag⟩ ∧ findAt p s1 = .ok (.file []) ∧
        isDirAt p s = false ∧
        ∀ q, (q ≠ p → fileAt q s1 = fileAt q s) ∧ isDirAt q s1 = isDirAt q s) := by
  have key : ∀ (p : Path) (s1 : Entries), isDirAt p s = false →
      alterAt (fun _ => .ok (some (.file []))) p s = .ok s1 →
      findAt p s1 = .ok (.file []) ∧
        ∀ q, (q ≠ p → fileAt q s1 = fileAt q s) ∧ isDirAt q s1 = isDirAt q s := by
    intro p s1 hnd ha
    obtain ⟨r, hr1, hr2⟩ := findAt_alterAt_self _ p s s1 ha
    simp at hr1
    subst hr1
    refine ⟨hr2, alterAt_file_frame _ ?_ p s s1 ha hnd⟩
    intro o r hr
    simp at hr
    exact ⟨[], hr.symm⟩
  unfold OsFs.OpenFile
  cases hres : resolve name with
  | error e =>
    refine ⟨?_, ?_⟩
    · intro e1 s1 h; simp at h; exact h.2.symm
    · intro h s1 hh; simp at hh
  | ok p =>
    dsimp only
    cases hfind : findAt p s with
    | error e =>
      have hnd : isDirAt p s = false := by unfold isDirAt; rw [hfind]
      by_cases he : e = .ENOENT
      · cases ha : alterAt (fun _ => .ok (some (.file []))) p s with
        | error e1 =>
          refine ⟨?_, ?_⟩
          · intro e2 s1 h; simp [hc, he, ha] at h; exact h.2.symm
          · intro h s1 hh; simp [hc, he, ha] at hh
        | ok s2 =>
          refine ⟨?_, ?_⟩
          · intro e2 s1 h; simp [hc, he, ha] at h
          · intro h s1 hh
            simp [hc, he, ha] at hh
            obtain ⟨h1, h2⟩ := hh
            subst h1 h2
            obtain ⟨k1, k2⟩ := key p s2 hnd ha
            exact ⟨p, rfl, rfl, k1, hnd, k2⟩
      · refine ⟨?_, ?_⟩
        · intro e2 s1 h; simp [he] at h; exact h.2.symm
        · intro h s1 hh; simp [he] at hh
    | ok n =>
      cases n with
      | dir es =>
        refine ⟨?_, ?_⟩
        · intro e2 s1 h; simp [hw] at h; exact h.2.symm
        · intro h s1 hh; simp [hw] at hh
      | file d =>
        have hnd : isDirAt p s = false := by unfold isDirAt; rw [hfind]
        cases ha : alterAt (fun _ => .ok (some (.file []))) p s with
        | error e1 =>
          refine ⟨?_, ?_⟩
          · intro e2 s1 h; simp [hw, ht, ha] at h; exact h.2.symm
          · intro h s1 hh; simp [hw, ht, ha] at hh
        | ok s2 =>
          refine ⟨?_, ?_⟩
          · intro e2 s1 h; simp [hw, ht, ha] at h
          · intro h s1 hh
            simp [hw, ht, ha] at hh
            obtain ⟨h1, h2⟩ := hh
            subst h1 h2
            obtain ⟨k1, k2⟩ := key p s2 hnd ha
            exact ⟨p, rfl, rfl, k1, hnd, k2⟩

/-- Writing through a handle with write access on a regular file: all bytes are
written, they replace the start of the content, and nothing else changes. -/
theorem write_handle (p : Path) (flag : OpenFlag) (b d : Bytes) (s : Disk)
    (hw : flag.write = true) (hf : findAt p s = .ok (.file d)) :
    ∃ s1, OsFs.Write ⟨p, flag⟩ b s = ((b.length, none), s1) ∧
      findAt p s1 = .ok (.file (b ++ d.drop b.length)) ∧
      ∀ q, (q ≠ p → fileAt q s1 = fileAt q s) ∧ isDirAt q s1 = isDirAt q s := by
  have hp : p ≠ [] := ne_nil_of_fileAt hf
  have hl : lookupAt p s = some (.file d) := by unfold lookupAt; rw [hf]
  have hnd : isDirAt p s = false := by unfold isDirAt; rw [hf]
  obtain ⟨s1, h1⟩ := alterAt_ok_of_parent
    (fun o => match o with
      | some (.file old) => .ok (some (.file (b ++ old.drop b.length)))
      | _ => .error .EBADF) p s hp (isDirAt_parent_of_found p s _ hp hf)
    (some (.file (b ++ d.drop b.length))) (by rw [hl])
  obtain ⟨r, hr1, hr2⟩ := findAt_alterAt_self _ p s s1 h1
  rw [hl] at hr1
  simp at hr1
  subst hr1
  refine ⟨s1, ?_, hr2, alterAt_file_frame _ ?_ p s s1 h1 hnd⟩
  · unfold OsFs.Write
    simp only [hw, if_true]
    rw [h1]
  · intro o r hr
    cases o with
    | none => simp at hr
    | some n =>
      cases n with
      | dir es => simp at hr
      | file old => simp at hr; exact ⟨_, hr.symm⟩

/-- The effect of `afero.WriteFile` on `OsFs`: a failure leaves the state alone; on success
the path holds a regular file with exactly the bytes written, it held no
directory before, and nothing else changed. -/
theorem writeFile_spec (name : String) (data : Bytes) (perm : Nat) (s : Disk) :
    (∀ e s1, afero.WriteFile afero.NewOsFs name data perm s = (some e, s1) → s1 = s) ∧
    (∀ s1, afero.WriteFile afero.NewOsFs name data perm s = (none, s1) →
      ∃ p, resolve name = .ok p ∧ findAt p s1 = .ok (.file data) ∧ isDirAt p s = false ∧
        ∀ q, (q ≠ p → fileAt q s1 = fileAt q s) ∧ isDirAt q s1 = isDirAt q s) := by
  obtain ⟨o1, o2⟩ := openFile_create_trunc name os.O_WRONLY_CREATE_TRUNC perm s rfl rfl rfl
  unfold afero.WriteFile afero.NewOsFs
  dsimp only
  cases hop : OsFs.OpenFile name os.O_WRONLY_CREATE_TRUNC perm s with
  | mk r s1 =>
    cases r with
    | error err =>
      have := o1 err s1 hop
      subst this
      refine ⟨?_, ?_⟩
      · intro e s2 h; simp at h; exact h.2.symm
      · intro s2 h; simp at h
    | ok f =>
      obtain ⟨p, hp, hf, hfind, hnd, hframe⟩ := o2 f s1 hop
      subst hf
      obtain ⟨s2, hw, hfind2, hframe2⟩ :=
        write_handle p os.O_WRONLY_CREATE_TRUNC data [] s1 rfl hfind
      dsimp only
      rw [hw]
      simp only [OsFs.Close, lt_irrefl, and_false, if_false, if_true]
      refine ⟨?_, ?_⟩
      · intro e s3 h; simp at h
      · intro s3 h
        simp at h
        subst h
        refine ⟨p, hp, by simpa using hfind2, hnd, ?_⟩
        intro q
        refine ⟨?_, ?_⟩
        · intro hq; rw [(hframe2 q).1 hq, (hframe q).1 hq]
        · rw [(hframe2 q).2, (hframe q).2]

/-- `Write` on `OsFs` when `MkdirAll` fails: its error, and the state it left. -/
theorem osStore_write_of_mkdir_error (basePath subDir fileName : String) (data : Bytes)
    (s s1 : Disk) (e : GoError)
    (hm : OsFs.MkdirAll (filepath.Join [basePath, subDir]) 0o755 s = (some e, s1)) :
    (osStore basePath).Write subDir fileName data s = (some e, s1) := by
  unfold FileStore.Write osStore afero.NewOsFs
  dsimp only
  rw [hm]

/-- `Write` on `OsFs` when `MkdirAll` succeeds: the result of `afero.WriteFile`. -/
theorem osStore_write_of_mkdir_ok (basePath subDir fileName : String) (data : Bytes)
    (s s1 : Disk)
    (hm : OsFs.MkdirAll (filepath.Join [basePath, subDir]) 0o755 s = (none, s1)) :
    (osStore basePath).Write subDir fileName data s =
      afero.WriteFile afero.NewOsFs (filepath.Join [basePath, subDir, fileName]) data 0o644
        s1 := by
  unfold FileStore.Write osStore
  dsimp only
  have : afero.NewOsFs.MkdirAll = OsFs.MkdirAll := rfl
  rw [this, hm]

/-- `Read` on `OsFs` in terms of what is at the joined path. -/
theorem osStore_read_eq (basePath subDir fileName : String) (s : Disk) :
    (osStore basePath).Read subDir fileName s =
      ((match nodeAt (filepath.Join [basePath, subDir, fileName]) s with
        | .error _ => (none, some errNotFound)
        | .ok (.file d) => (some d, none)
        | .ok (.dir _) => (some [], some .EISDIR)), s) := by
  unfold FileStore.Read osStore
  dsimp only
  rw [exists_eq]
  cases hn : nodeAt (filepath.Join [basePath, subDir, fileName]) s with
  | error e =>
    by_cases he : os.IsNotExist e = true <;> simp [he]
  | ok n =>
    dsimp only
    rw [readFile_eq, hn]
    cases n <;> rfl

/-- `Exists` on `OsFs` in terms of what is at the joined path. -/
theorem osStore_exists_eq (basePath subDir fileName : String) (s : Disk) :
    (osStore basePath).Exists subDir fileName s =
      ((match nodeAt (filepath.Join [basePath, subDir, fileName]) s with
        | .ok _ => (true, none)
        | .error e => if os.IsNotExist e then (false, none) else (false, some e)), s) := by
  unfold FileStore.Exists osStore
  dsimp only
  rw [exists_eq]


theorem nodeAt_error_cases (name : String) (s : Disk) (e : GoError)
    (h : nodeAt name s = .error e) : e = .ENOENT ∨ e = .ENOTDIR := by
  unfold nodeAt at h
  cases hres : resolve name with
  | error e1 =>
    rw [hres] at h
    unfold resolve at hres
    split at hres
    · simp at hres h; left; rw [← h, ← hres]
    · simp at hres
  | ok p =>
    rw [hres] at h
    exact findAt_error_cases p s e h

theorem absentAt_iff (name : String) (s : Disk) :
    absentAt name s = true ↔ ∃ e, nodeAt name s = .error e := by
  unfold absentAt
  cases nodeAt name s <;> simp

/-- `ListFiles` on `OsFs` in terms of what is at the joined path. -/
theorem osStore_listFiles_eq (basePath subDir partialName : String) (s : Disk) :
    (osStore basePath).ListFiles subDir partialName s =
      ((match nodeAt (filepath.Join [basePath, subDir]) s with
        | .error e => .error e
        | .ok (.file _) => .error .ENOTDIR
        | .ok (.dir es) => .ok (listedNames es partialName)), s) := by
  unfold FileStore.ListFiles osStore afero.ReadDir
  have e1 : afero.NewOsFs.Open = OsFs.Open := rfl
  have e2 : afero.NewOsFs.Readdir = OsFs.Readdir := rfl
  have e3 : afero.NewOsFs.Close = OsFs.Close := rfl
  simp only [e1, e2, e3, open_eq]
  unfold nodeAt
  cases hres : resolve (filepath.Join [basePath, subDir]) with
  | error e => rfl
  | ok p =>
    cases hf : findAt p s with
    | error e => simp [hf]
    | ok n =>
      cases n with
      | file d => simp [OsFs.Readdir, OsFs.Close, hf]
      | dir es => simp [OsFs.Readdir, OsFs.Close, hf, listedNames, dirListing]

/-- The effect of `os.Remove`: after a success nothing is at the path, and its parent directory
is still there. -/
theorem remove_spec (name : String) (s s1 : Disk) (h : OsFs.Remove name s = (none, s1)) :
    ∃ p, resolve name = .ok p ∧ findAt p s1 = .error .ENOENT := by
  unfold OsFs.Remove at h
  have key : ∀ p, alterAt (fun _ => .ok none) p s = .ok s1 → findAt p s1 = .error .ENOENT := by
    intro p ha
    obtain ⟨r, hr1, hr2⟩ := findAt_alterAt_self _ p s s1 ha
    simp at hr1
    subst hr1
    exact hr2
  cases hres : resolve name with
  | error e => rw [hres] at h; simp at h
  | ok p =>
    rw [hres] at h
    dsimp only at h
    refine ⟨p, rfl, ?_⟩
    cases hf : findAt p s with
    | error e => rw [hf] at h; simp at h
    | ok n =>
      rw [hf] at h
      cases n with
      | file d =>
        dsimp only at h
        cases ha : alterAt (fun _ => .ok none) p s with
        | error e => rw [ha] at h; simp at h
        | ok s2 =>
          rw [ha] at h
          simp at h
          subst h
          exact key p ha
      | dir es =>
        dsimp only at h
        by_cases hdot : (pathElems name).getLast? = some "."
        · rw [if_pos hdot] at h; simp at h
        · rw [if_neg hdot] at h
          by_cases hroot : p.isEmpty = true
          · rw [if_pos hroot] at h; simp at h
          · rw [if_neg hroot] at h
            by_cases hes : es.isEmpty = true
            · rw [if_pos hes] at h
              cases ha : alterAt (fun _ => .ok none) p s with
              | error e => rw [ha] at h; simp at h
              | ok s2 =>
                rw [ha] at h
                simp at h
                subst h
                exact key p ha
            · rw [if_neg hes] at h
              simp at h

/-- The effect of `os.RemoveAll`: after a success nothing is at the path or below it, unless
the path is empty, and then nothing changed. -/
theorem removeAll_spec (path : String) (s s1 : Disk) (h : OsFs.RemoveAll path s = (none, s1)) :
    (path = "" ∧ s1 = s) ∨
    (∃ p, resolve path = .ok p ∧ ∃ e, findAt p s1 = .error e) := by
  unfold OsFs.RemoveAll at h
  by_cases hp : path = ""
  · left
    rw [if_pos hp] at h
    simp at h
    exact ⟨hp, h.symm⟩
  · right
    rw [if_neg hp] at h
    split at h
    · simp at h
    · cases hres : resolve path with
      | error e => rw [hres] at h; simp at h
      | ok p =>
        rw [hres] at h
        refine ⟨p, rfl, ?_⟩
        cases p with
        | nil => simp at h
        | cons c cs =>
          dsimp only at h
          cases hf : findAt (c :: cs) s with
          | error e =>
            rw [hf] at h
            dsimp only at h
            by_cases he : os.IsNotExist e = true
            · rw [if_pos he] at h
              simp at h
              subst h
              exact ⟨e, hf⟩
            · rw [if_neg he] at h
              simp at h
          | ok n =>
            rw [hf] at h
            dsimp only at h
            cases ha : alterAt (fun _ => .ok none) (c :: cs) s with
            | error e => rw [ha] at h; simp at h
            | ok s2 =>
              rw [ha] at h
              simp at h
              subst h
              obtain ⟨r, hr1, hr2⟩ := findAt_alterAt_self _ (c :: cs) s s2 ha
              simp at hr1
              subst hr1
              exact ⟨_, hr2⟩

/-- On a path whose lookup fails `os.RemoveAll` changes nothing: it returns `nil` when the
lookup fails with not-exist and the error of the lookup otherwise.  The path is one
whose last element is `.` only when it resolves to the root. -/
theorem removeAll_absent (path : String) (s : Disk) (e : GoError)
    (he : nodeAt path s = .error e)
    (hdot : (pathElems path).getLast? = some "." → resolve path = .ok []) :
    OsFs.RemoveAll path s = (if os.IsNotExist e then none else some e, s) := by
  unfold nodeAt at he
  unfold OsFs.RemoveAll
  by_cases hp : path = ""
  · rw [if_pos hp]
    rw [hp] at he
    have : e = .ENOENT := by
      simp [resolve] at he
      exact he.symm
    subst this
    rfl
  · rw [if_neg hp]
    by_cases hd : (pathElems path).getLast? = some "."
    · rw [hdot hd] at he
      simp [findAt] at he
    · rw [if_neg hd]
      cases hres : resolve path with
      | error e1 => rw [hres] at he; unfold resolve at hres; simp [hp] at hres
      | ok p =>
        rw [hres] at he
        dsimp only at he
        cases p with
        | nil => simp [findAt] at he
        | cons c cs =>
          dsimp only
          rw [he]
          dsimp only
          split <;> rfl

theorem alterAt_cons_of_ne_nil (f : Option Node → Except GoError (Option Node)) (es : Entries)
    (c : String) (cs : Path) (h : cs ≠ []) :
    alterAt f (c :: cs) es = (match getEntry es c with
      | none => .error .ENOENT
      | some (.file _) => .error .ENOTDIR
      | some (.dir sub) =>
        match alterAt f cs sub with
        | .error e => .error e
        | .ok sub1 => .ok (setEntry es c (.dir sub1))) := by
  cases cs with
  | nil => exact absurd rfl h
  | cons d ds => rfl

/-- After a change of the entry `c` of the directory at `q`, the directory at `q` holds
the entries it held with `c` set or removed as `f` answered. -/
theorem findAt_parent_alterAt (f : Option Node → Except GoError (Option Node)) :
    ∀ (q : Path) (c : String) (s s1 es : Entries), findAt q s = .ok (.dir es) →
      alterAt f (q ++ [c]) s = .ok s1 →
      ∃ r, f (getEntry es c) = .ok r ∧
        findAt q s1 = .ok (.dir (match r with
          | none => delEntry es c
          | some n => setEntry es c n)) := by
  intro q
  induction q with
  | nil =>
    intro c s s1 es hf ha
    simp only [findAt, Except.ok.injEq, Node.dir.injEq] at hf
    subst hf
    simp only [List.nil_append] at ha
    rw [alterAt_single] at ha
    cases hfo : f (getEntry s c) with
    | error e => rw [hfo] at ha; simp at ha
    | ok r =>
      rw [hfo] at ha
      cases r with
      | none => simp at ha; subst ha; exact ⟨none, rfl, rfl⟩
      | some n => simp at ha; subst ha; exact ⟨some n, rfl, rfl⟩
  | cons k q ih =>
    intro c s s1 es hf ha
    rw [List.cons_append, alterAt_cons_of_ne_nil _ _ _ _ (by simp)] at ha
    rw [findAt_cons] at hf
    cases hg : getEntry s k with
    | none => rw [hg] at hf; simp at hf
    | some n =>
      rw [hg] at hf ha
      cases n with
      | file b =>
        by_cases hq : q = [] <;> simp [hq] at hf
      | dir sub =>
        dsimp only at hf ha
        cases hal : alterAt f (q ++ [c]) sub with
        | error e => rw [hal] at ha; simp at ha
        | ok sub1 =>
          rw [hal] at ha
          simp at ha
          subst ha
          obtain ⟨r, hr1, hr2⟩ := ih c sub sub1 es hf hal
          exact ⟨r, hr1, by rw [findAt_setEntry_self_dir]; exact hr2⟩

theorem dropLast_append_getLast_path (p : Path) (h : p ≠ []) :
    ∃ c, p = p.dropLast ++ [c] :=
  ⟨p.getLast h, (List.dropLast_append_getLast h).symm⟩

/-- A lookup that fails below a directory that exists fails with not-exist. -/
theorem findAt_error_of_parent_dir (p : Path) (s : Entries) (e : GoError) (hp : p ≠ [])
    (hd : isDirAt p.dropLast s = true) (hf : findAt p s = .error e) : e = .ENOENT := by
  obtain ⟨c, hc⟩ := dropLast_append_getLast_path p hp
  rw [hc, findAt_append] at hf
  unfold isDirAt at hd
  cases hq : findAt p.dropLast s with
  | error e1 => rw [hq] at hd; simp at hd
  | ok n =>
    rw [hq] at hd hf
    cases n with
    | file b => simp at hd
    | dir es =>
      dsimp only at hf
      rw [findAt_single] at hf
      cases hg : getEntry es c with
      | none => rw [hg] at hf; simp at hf; exact hf.symm
      | some m => rw [hg] at hf; simp at hf

/-- The effect of `os.Create` on `OsFs`, by what is at the path. -/
theorem create_spec (name : String) (p : Path) (s : Disk) (hres : resolve name = .ok p) :
    (∀ e, findAt p s = .error e → isDirAt p.dropLast s = true →
      ∃ f s1, OsFs.Create name s = (.ok f, s1) ∧ findAt p s1 = .ok (.file []) ∧
        ∀ es c, p = p.dropLast ++ [c] → findAt p.dropLast s = .ok (.dir es) →
          findAt p.dropLast s1 = .ok (.dir (setEntry es c (.file [])))) ∧
    (∀ e, findAt p s = .error e → isDirAt p.dropLast s = false →
      OsFs.Create name s = (.error e, s)) := by
  unfold OsFs.Create OsFs.OpenFile
  rw [hres]
  dsimp only
  constructor
  · intro e hf hd
    have hp : p ≠ [] := by
      intro hp; subst hp; simp [findAt] at hf
    have he := findAt_error_of_parent_dir p s e hp hd hf
    subst he
    have hl : lookupAt p s = none := by unfold lookupAt; rw [hf]
    obtain ⟨s1, h1⟩ := alterAt_ok_of_parent (fun _ => .ok (some (.file []))) p s hp hd
      (some (.file [])) rfl
    obtain ⟨r, hr1, hr2⟩ := findAt_alterAt_self _ p s s1 h1
    simp at hr1
    subst hr1
    refine ⟨⟨p, os.O_RDWR_CREATE_TRUNC⟩, s1, ?_, hr2, ?_⟩
    · rw [hf]
      simp [os.O_RDWR_CREATE_TRUNC, h1]
    · intro es c hc hq
      rw [hc] at h1
      obtain ⟨r, k1, k2⟩ := findAt_parent_alterAt _ p.dropLast c s s1 es hq h1
      simp at k1
      subst k1
      exact k2
  · intro e hf hd
    have hp : p ≠ [] := by
      intro hp; subst hp; simp [findAt] at hf
    obtain ⟨e1, h1, h2⟩ := alterAt_error_of_parent (fun _ => .ok (some (.file []))) p s hp hd
    rw [hf] at h2
    simp only [Except.error.injEq] at h2
    subst h2
    rw [hf]
    by_cases he : e = .ENOENT
    · simp [os.O_RDWR_CREATE_TRUNC, he, h1]
    · simp [he]

/-- `CreateFile` on `OsFs` when something exists at the joined path: nothing is done. -/
theorem osStore_createFile_of_found (basePath subDir fileName : String) (s : Disk) (n : Node)
    (h : nodeAt (filepath.Join [basePath, subDir, fileName]) s = .ok n) :
    (osStore basePath).CreateFile subDir fileName s = (none, s) := by
  unfold FileStore.CreateFile osStore
  dsimp only
  rw [exists_eq, h]

/-- `CreateFile` on `OsFs` when nothing exists at the joined path: the result of `Create`. -/
theorem osStore_createFile_of_absent (basePath subDir fileName : String) (s : Disk)
    (e : GoError) (h : nodeAt (filepath.Join [basePath, subDir, fileName]) s = .error e) :
    (osStore basePath).CreateFile subDir fileName s =
      (match OsFs.Create (filepath.Join [basePath, subDir, fileName]) s with
        | (.error err, s2) => (some err, s2)
        | (.ok _, s2) => (none, s2)) := by
  unfold FileStore.CreateFile osStore
  dsimp only
  rw [exists_eq, h]
  have e1 : afero.NewOsFs.Create = OsFs.Create := rfl
  rw [e1]
  cases hx : os.IsNotExist e <;>
    cases hc : OsFs.Create (filepath.Join [basePath, subDir, fileName]) s with
    | mk r s2 => cases r <;> simp [hc, hx]

/-- What a successful `NewFileStore` gives: the store over `OsFs` with the base path, and
a state in which the base path is a directory. -/
theorem newFileStore_ok (basePath : String) (s0 s : Disk) (fs : FileStore Disk OsFile)
    (h : NewFileStore basePath s0 = (.ok fs, s)) :
    fs = osStore basePath ∧ ∃ b, resolve basePath = .ok b ∧ isDirAt b s = true := by
  unfold NewFileStore at h
  dsimp only at h
  have e1 : afero.NewOsFs.MkdirAll = OsFs.MkdirAll := rfl
  rw [e1] at h
  unfold OsFs.MkdirAll at h
  cases hres : resolve basePath with
  | error e => rw [hres] at h; simp at h
  | ok b =>
    rw [hres] at h
    dsimp only at h
    cases hm : mkdirAllAt b s0 with
    | error e => rw [hm] at h; simp at h
    | ok s1 =>
      rw [hm] at h
      simp only [Prod.mk.injEq, Except.ok.injEq] at h
      obtain ⟨h1, h2⟩ := h
      subst h2
      exact ⟨h1.symm, b, rfl, (mkdirAllAt_spec b s0 s1 hm).1⟩

/-- The effect of `os.MkdirAll` on `OsFs`: a failure leaves the state alone, a success is the
effect of `mkdirAllAt` on the resolved path. -/
theorem mkdirAll_spec (path : String) (perm : Nat) (s : Disk) :
    (∀ e s1, OsFs.MkdirAll path perm s = (some e, s1) → s1 = s) ∧
    (∀ s1, OsFs.MkdirAll path perm s = (none, s1) →
      ∃ d, resolve path = .ok d ∧ mkdirAllAt d s = .ok s1) := by
  unfold OsFs.MkdirAll
  cases hres : resolve path with
  | error e =>
    refine ⟨?_, ?_⟩
    · intro e1 s1 h; simp at h; exact h.2.symm
    · intro s1 h; simp at h
  | ok d =>
    dsimp only
    cases hm : mkdirAllAt d s with
    | error e =>
      refine ⟨?_, ?_⟩
      · intro e1 s1 h; simp at h; exact h.2.symm
      · intro s1 h; simp at h
    | ok s2 =>
      refine ⟨?_, ?_⟩
      · intro e1 s1 h; simp at h
      · intro s1 h
        simp at h
        subst h
        exact ⟨d, rfl, hm⟩

/-! ## Listing a directory -/

/-- Go `strings.Contains` holds exactly when the second string is a contiguous part of
the first, character by character. -/
theorem strings_Contains_iff (s substr : String) :
    strings.Contains s substr = true ↔ substr.data <:+: s.data := by
  unfold strings.Contains
  rw [List.any_eq_true, List.infix_iff_prefix_suffix]
  constructor
  · rintro ⟨t, ht, hp⟩
    exact ⟨t, List.isPrefixOf_iff_prefix.1 hp, (List.mem_tails t _).1 ht⟩
  · rintro ⟨t, hp, ht⟩
    exact ⟨t, (List.mem_tails t _).2 ht, List.isPrefixOf_iff_prefix.2 hp⟩

theorem strings_Contains_empty (s : String) : strings.Contains s "" = true := by
  rw [strings_Contains_iff]
  exact List.nil_infix

theorem nodeInfo_name (name : String) (n : Node) : (nodeInfo name n).Name = name := by
  cases n <;> rfl

theorem mem_listEntries (es : Entries) : ∀ (seen : List String) (n : String),
    n ∈ (listEntries seen es).map Prod.fst ↔ n ∉ seen ∧ (getEntry es n).isSome = true := by
  induction es with
  | nil => intro seen n; simp [listEntries, getEntry]
  | cons e es ih =>
    intro seen n
    obtain ⟨k, v⟩ := e
    by_cases hk : k ∈ seen
    · simp only [listEntries, hk, if_true, getEntry]
      rw [ih]
      by_cases hkn : k = n
      · subst hkn; simp [hk]
      · simp [hkn]
    · simp only [listEntries, hk, if_false, getEntry, List.map_cons, List.mem_cons]
      rw [ih]
      by_cases hkn : k = n
      · subst hkn; simp [hk]
      · simp only [hkn, if_false, List.mem_cons, not_or]
        constructor
        · rintro (h | ⟨⟨_, h2⟩, h3⟩)
          · exact absurd h.symm hkn
          · exact ⟨h2, h3⟩
        · rintro ⟨h2, h3⟩
          exact Or.inr ⟨⟨fun h => hkn h.symm, h2⟩, h3⟩

theorem nodup_listEntries (es : Entries) : ∀ (seen : List String),
    ((listEntries seen es).map Prod.fst).Nodup := by
  induction es with
  | nil => intro seen; simp [listEntries]
  | cons e es ih =>
    intro seen
    obtain ⟨k, v⟩ := e
    by_cases hk : k ∈ seen
    · simp only [listEntries, hk, if_true]
      exact ih seen
    · simp only [listEntries, hk, if_false, List.map_cons, List.nodup_cons]
      refine ⟨?_, ih _⟩
      rw [mem_listEntries]
      simp

theorem dirListing_names_perm (es : Entries) :
    ((dirListing es).map (fun file => file.Name)).Perm ((listEntries [] es).map Prod.fst) := by
  unfold dirListing
  have h1 := (List.perm_insertionSort (fun a b : FileInfo =>
    (!nameLess b.Name.toList a.Name.toList) = true)
    ((listEntries [] es).map (fun e => nodeInfo e.1 e.2))).map (fun file => file.Name)
  refine h1.trans ?_
  rw [List.map_map]
  have : ((fun file : FileInfo => file.Name) ∘ fun e : String × Node => nodeInfo e.1 e.2) =
      Prod.fst := by
    funext e
    exact nodeInfo_name e.1 e.2
  rw [this]

/-- `afero.ReadDir` on `OsFs` in terms of what is at the path. -/
theorem readDir_eq (name : String) (s : Disk) :
    afero.ReadDir afero.NewOsFs name s =
      ((match nodeAt name s with
        | .error e => .error e
        | .ok (.file _) => .error .ENOTDIR
        | .ok (.dir es) => .ok (dirListing es)), s) := by
  unfold afero.ReadDir
  have e1 : afero.NewOsFs.Open = OsFs.Open := rfl
  have e2 : afero.NewOsFs.Readdir = OsFs.Readdir := rfl
  have e3 : afero.NewOsFs.Close = OsFs.Close := rfl
  simp only [e1, e2, e3, open_eq]
  unfold nodeAt
  cases hres : resolve name with
  | error e => rfl
  | ok p =>
    cases hf : findAt p s with
    | error e => simp [hf]
    | ok n =>
      cases n with
      | file d => simp [OsFs.Readdir, OsFs.Close, hf]
      | dir es => simp [OsFs.Readdir, OsFs.Close, hf, dirListing]

/-! ## Copying -/

theorem fileAt_eq_some_iff (p : Path) (s : Disk) (d : Bytes) :
    fileAt p s = some d ↔ findAt p s = .ok (.file d) := by
  unfold fileAt
  cases hf : findAt p s with
  | error e => simp
  | ok n => cases n <;> simp

theorem isDirAt_eq_true_iff (p : Path) (s : Disk) :
    isDirAt p s = true ↔ ∃ es, findAt p s = .ok (.dir es) := by
  unfold isDirAt
  cases hf : findAt p s with
  | error e => simp
  | ok n => cases n <;> simp

/-- Go `io.Copy` on `OsFs` from a regular file into an empty regular file elsewhere: all
bytes arrive, and the source keeps them. -/
theorem copy_spec (ps pd : Path) (fr fw : OpenFlag) (d : Bytes) (s : Disk)
    (hr : fr.read = true) (hw : fw.write = true)
    (hsrc : findAt ps s = .ok (.file d)) (hdst : findAt pd s = .ok (.file []))
    (hne : ps ≠ pd) :
    ∃ s1, io.Copy afero.NewOsFs ⟨pd, fw⟩ ⟨ps, fr⟩ s = ((d.length, none), s1) ∧
      findAt pd s1 = .ok (.file d) ∧ findAt ps s1 = .ok (.file d) := by
  unfold io.Copy
  have e1 : afero.NewOsFs.ReadToEOF = OsFs.ReadToEOF := rfl
  have e2 : afero.NewOsFs.Write = OsFs.Write := rfl
  rw [e1, e2]
  have hread : OsFs.ReadToEOF ⟨ps, fr⟩ s = ((d, none), s) := by
    unfold OsFs.ReadToEOF
    simp [hr, hsrc]
  rw [hread]
  dsimp only
  by_cases hd : d = []
  · subst hd
    simp only [if_true]
    exact ⟨s, rfl, hdst, hsrc⟩
  · rw [if_neg hd]
    obtain ⟨s1, h1, h2, h3⟩ := write_handle pd fw d [] s hw hdst
    rw [h1]
    refine ⟨s1, by simp, by simpa using h2, ?_⟩
    rw [← fileAt_eq_some_iff, (h3 ps).1 hne, fileAt_eq_some_iff]
    exact hsrc

/-- `CopyFile` on `OsFs` copies the bytes whenever it returns no error, the
destination directory is given by a clean name and the destination file is not
the source file: the source is a regular file, and after the call the
destination holds the content the source had before the call, and so does the
source. -/
theorem copyFile_copies (basePath srcFile destFile newFileName : String) (s : Disk)
    (ps pd : Path) (_hclean : filepath.Clean destFile = destFile)
    (hs : resolve (filepath.Join [basePath, srcFile]) = .ok ps)
    (hd : resolve (filepath.Join [destFile, newFileName]) = .ok pd) (hne : ps ≠ pd)
    (hok : ((osStore basePath).CopyFile srcFile destFile newFileName s).1 = none) :
    ∃ d, fileAt ps s = some d ∧
      fileAt pd ((osStore basePath).CopyFile srcFile destFile newFileName s).2 = some d ∧
      fileAt ps ((osStore basePath).CopyFile srcFile destFile newFileName s).2 = some d := by
  unfold FileStore.CopyFile osStore at hok ⊢
  have e1 : afero.NewOsFs.MkdirAll = OsFs.MkdirAll := rfl
  have e2 : afero.NewOsFs.Open = OsFs.Open := rfl
  have e3 : afero.NewOsFs.Create = OsFs.Create := rfl
  have e4 : afero.NewOsFs.Close = OsFs.Close := rfl
  simp only [e1, e2, e3, e4] at hok ⊢
  obtain ⟨m1, m2⟩ := mkdirAll_spec destFile 0o755 s
  cases hm : OsFs.MkdirAll destFile 0o755 s with
  | mk r s1 =>
    rw [hm] at hok
    cases r with
    | some err => simp at hok
    | none =>
      obtain ⟨dp, _, hmk⟩ := m2 s1 hm
      obtain ⟨_, hframe⟩ := mkdirAllAt_spec dp s s1 hmk
      dsimp only at hok ⊢
      rw [open_eq, hs] at hok ⊢
      dsimp only at hok ⊢
      cases hf : findAt ps s1 with
      | error e => rw [hf] at hok; simp at hok
      | ok n =>
        rw [hf] at hok
        dsimp only at hok ⊢
        obtain ⟨_, o2⟩ := openFile_create_trunc (filepath.Join [destFile, newFileName])
          os.O_RDWR_CREATE_TRUNC 0o666 s1 rfl rfl rfl
        cases hc : OsFs.Create (filepath.Join [destFile, newFileName]) s1 with
        | mk rc s3 =>
          rw [hc] at hok
          cases rc with
          | error e => simp at hok
          | ok dest =>
            obtain ⟨p, hp, hdest, hfile, _, hfr⟩ := o2 dest s3 hc
            rw [hd] at hp
            simp only [Except.ok.injEq] at hp
            subst hp hdest
            dsimp only at hok ⊢
            cases n with
            | dir es =>
              exfalso
              have h1 : isDirAt ps s3 = true := by
                rw [(hfr ps).2]; unfold isDirAt; rw [hf]
              obtain ⟨es3, h3⟩ := (isDirAt_eq_true_iff ps s3).1 h1
              have : io.Copy afero.NewOsFs ⟨pd, os.O_RDWR_CREATE_TRUNC⟩ ⟨ps, os.O_RDONLY⟩ s3 =
                  ((0, some .EISDIR), s3) := by
                unfold io.Copy
                have e5 : afero.NewOsFs.ReadToEOF = OsFs.ReadToEOF := rfl
                rw [e5]
                unfold OsFs.ReadToEOF
                simp [os.O_RDONLY, h3]
              rw [this] at hok
              simp at hok
            | file d =>
              have h1 : findAt ps s3 = .ok (.file d) := by
                rw [← fileAt_eq_some_iff, (hfr ps).1 hne, fileAt_eq_some_iff]
                exact hf
              obtain ⟨s4, hcopy, k1, k2⟩ := copy_spec ps pd os.O_RDONLY os.O_RDWR_CREATE_TRUNC d
                s3 rfl rfl h1 hfile hne
              rw [hcopy]
              dsimp only [OsFs.Close]
              refine ⟨d, ?_, (fileAt_eq_some_iff _ _ _).2 k1, (fileAt_eq_some_iff _ _ _).2 k2⟩
              rw [← (hframe ps).1, fileAt_eq_some_iff]
              exact hf

/-- C1: on the filesystem `NewFileStore` installs, for every base path, state,
subdirectory, file name and data, a `Write` that returns no error is followed by
a `Read` that returns exactly the data and no error; neither result depends on
whether the subdirectory or the file existed or on what the file held. -/
theorem write_then_read (basePath subDir fileName : String) (data : Bytes) (s : Disk)
    (h : ((osStore basePath).Write subDir fileName data s).1 = none) :
    ((osStore basePath).Read subDir fileName
      ((osStore basePath).Write subDir fileName data s).2).1 = (some data, none) := by
  cases hm : OsFs.MkdirAll (filepath.Join [basePath, subDir]) 0o755 s with
  | mk r s1 =>
    cases r with
    | some err =>
      rw [osStore_write_of_mkdir_error _ _ _ _ _ _ _ hm] at h
      simp at h
    | none =>
      rw [osStore_write_of_mkdir_ok _ _ _ _ _ _ hm] at h ⊢
      cases hwf : afero.WriteFile afero.NewOsFs (filepath.Join [basePath, subDir, fileName])
          data 0o644 s1 with
      | mk r2 s2 =>
        rw [hwf] at h
        dsimp only at h
        subst h
        obtain ⟨p, hp, hfind, _, _⟩ := (writeFile_spec _ data 0o644 s1).2 s2 hwf
        have hn : nodeAt (filepath.Join [basePath, subDir, fileName]) s2 = .ok (.file data) := by
          unfold nodeAt; rw [hp]; exact hfind
        rw [osStore_read_eq, hn]

/-- C1 at `Write("logs", "x.log", "hello")` on an empty disk with base `/r`. -/
theorem write_then_read_witness :
    ((osStore "/r").Write "logs" "x.log" [104, 101, 108, 108, 111] []).1 = none ∧
    ((osStore "/r").Read "logs" "x.log"
      ((osStore "/r").Write "logs" "x.log" [104, 101, 108, 108, 111] []).2).1 =
        (some [104, 101, 108, 108, 111], none) :=
  ⟨by decide, write_then_read "/r" "logs" "x.log" [104, 101, 108, 108, 111] [] (by decide)⟩

/-- C5 fails as stated: with base `/r` and a regular file `/r/f.txt`, nothing
exists at `Join("/r", "f.txt", "x")`, yet `Exists("f.txt", "x")` returns false
together with the error `ENOTDIR` of the lookup, not false with no error. -/
theorem exists_absent_counterexample :
    absentAt (filepath.Join ["/r", "f.txt", "x"]) [("r", .dir [("f.txt", .file [1])])] = true ∧
    ((osStore "/r").Exists "f.txt" "x" [("r", .dir [("f.txt", .file [1])])]).1 =
      (false, some .ENOTDIR) := by
  decide

/-- C5, amended: when nothing exists at the joined path, `Read` returns no bytes
with the not-found error it builds itself and leaves the state as it is (no
file is created), and `Exists` returns false and leaves the state as it is.
For a joined name the kernel takes (`os.validName`), the error next to that
false is `nil` when the lookup fails with not-exist, and is the `ENOTDIR` of
the lookup when the path runs through a regular file. -/
theorem absent_read_exists (basePath subDir fileName : String) (s : Disk)
    (h : absentAt (filepath.Join [basePath, subDir, fileName]) s = true) :
    (osStore basePath).Read subDir fileName s = ((none, some errNotFound), s) ∧
    ((osStore basePath).Exists subDir fileName s).2 = s ∧
    ((osStore basePath).Exists subDir fileName s).1.1 = false ∧
    (os.validName (filepath.Join [basePath, subDir, fileName]) = true →
      (nodeAt (filepath.Join [basePath, subDir, fileName]) s = .error .ENOENT ∧
          ((osStore basePath).Exists subDir fileName s).1 = (false, none)) ∨
        (nodeAt (filepath.Join [basePath, subDir, fileName]) s = .error .ENOTDIR ∧
          ((osStore basePath).Exists subDir fileName s).1 = (false, some .ENOTDIR))) := by
  rw [absentAt_iff] at h
  obtain ⟨e, he⟩ := h
  rw [osStore_read_eq, osStore_exists_eq, he]
  refine ⟨rfl, rfl, ?_, ?_⟩
  · dsimp only
    split <;> rfl
  · intro _
    rcases nodeAt_error_cases _ _ _ he with h1 | h1
    · subst h1; left; exact ⟨rfl, rfl⟩
    · subst h1; right; exact ⟨rfl, rfl⟩

/-- C5, amended, at a missing file of an existing subdirectory, whose joined
name `/r/logs/x.log` is one the kernel takes. -/
theorem absent_read_exists_witness :
    absentAt (filepath.Join ["/r", "logs", "x.log"]) [("r", .dir [("logs", .dir [])])] = true ∧
    os.validName (filepath.Join ["/r", "logs", "x.log"]) = true ∧
    ((osStore "/r").Read "logs" "x.log" [("r", .dir [("logs", .dir [])])]).1 =
      (none, some errNotFound) ∧
    ((osStore "/r").Exists "logs" "x.log" [("r", .dir [("logs", .dir [])])]).1.1 = false ∧
    ((osStore "/r").Exists "logs" "x.log" [("r", .dir [("logs", .dir [])])]).1 = (false, none) :=
  have w := absent_read_exists "/r" "logs" "x.log" [("r", .dir [("logs", .dir [])])] (by decide)
  ⟨by decide, by decide, by rw [w.1], w.2.2.1, by decide⟩

/-- `Delete` on `OsFs` is `os.Remove` of the joined path. -/
theorem osStore_delete_eq (basePath subDir fileName : String) (s : Disk) :
    (osStore basePath).Delete subDir fileName s =
      OsFs.Remove (filepath.Join [basePath, subDir, fileName]) s := rfl

/-- C8: a `Delete` that returns no error is followed by an `Exists` that returns
false with no error and by a `Read` that fails with the not-found error. -/
theorem delete_then_absent (basePath subDir fileName : String) (s : Disk)
    (h : ((osStore basePath).Delete subDir fileName s).1 = none) :
    ((osStore basePath).Exists subDir fileName
      ((osStore basePath).Delete subDir fileName s).2).1 = (false, none) ∧
    ((osStore basePath).Read subDir fileName
      ((osStore basePath).Delete subDir fileName s).2).1 = (none, some errNotFound) := by
  rw [osStore_delete_eq] at h ⊢
  cases hr : OsFs.Remove (filepath.Join [basePath, subDir, fileName]) s with
  | mk r s1 =>
    rw [hr] at h
    dsimp only at h
    subst h
    obtain ⟨p, hp, hf⟩ := remove_spec _ s s1 hr
    have hn : nodeAt (filepath.Join [basePath, subDir, fileName]) s1 = .error .ENOENT := by
      unfold nodeAt; rw [hp]; exact hf
    rw [osStore_exists_eq, osStore_read_eq, hn]
    exact ⟨rfl, rfl⟩

/-- C8 at a file written just before. -/
theorem delete_then_absent_witness :
    ((osStore "/r").Delete "logs" "x.log"
      ((osStore "/r").Write "logs" "x.log" [104, 105] []).2).1 = none ∧
    ((osStore "/r").Exists "logs" "x.log" ((osStore "/r").Delete "logs" "x.log"
      ((osStore "/r").Write "logs" "x.log" [104, 105] []).2).2).1 = (false, none) ∧
    ((osStore "/r").Read "logs" "x.log" ((osStore "/r").Delete "logs" "x.log"
      ((osStore "/r").Write "logs" "x.log" [104, 105] []).2).2).1 = (none, some errNotFound) :=
  ⟨by decide, delete_then_absent "/r" "logs" "x.log"
    ((osStore "/r").Write "logs" "x.log" [104, 105] []).2 (by decide)⟩

/-- `DeleteAll` on `OsFs` is `os.RemoveAll` of the joined path. -/
theorem osStore_deleteAll_eq (basePath subDir : String) (s : Disk) :
    (osStore basePath).DeleteAll subDir s =
      OsFs.RemoveAll (filepath.Join [basePath, subDir]) s := rfl

/-- C7 fails as stated, in two ways.  With base `/r` and a regular file `/r/f`,
the subdirectory `f/x` does not exist, yet `DeleteAll("f/x")` returns
`ENOTDIR`.  And on a store with an empty base path (the fields of `FileStore`
are exported; `NewFileStore` does not return such a store), after
`Write("a", "x", _)` has returned no error, `DeleteAll("")` returns no error
and removes nothing: `Exists("", "a/x")` is still true. -/
theorem deleteAll_counterexample :
    (absentAt (filepath.Join ["/r", "f/x"]) [("r", .dir [("f", .file [1])])] = true ∧
      ((osStore "/r").DeleteAll "f/x" [("r", .dir [("f", .file [1])])]).1 = some .ENOTDIR) ∧
    (((osStore "").Write "a" "x" [1] []).1 = none ∧
      ((osStore "").DeleteAll "" ((osStore "").Write "a" "x" [1] []).2).1 = none ∧
      ((osStore "").Exists "" "a/x"
        ((osStore "").DeleteAll "" ((osStore "").Write "a" "x" [1] []).2).2).1 =
          (true, none)) := by
  decide

/-- C7, amended.  (1) When `DeleteAll(subDir)` returns no error: nothing is left
at the resolved path `d` of `Join(BasePath, subDir)` or at any path below it,
at any depth; `Exists(subDir, f)` is false for every `f` whose joined path lies
at or below `d`, which, unless `BasePath` and `subDir` are both empty, every
`f` without a `..` element does; and a following `ListFiles(subDir, "")`
returns an error.  For a joined name the kernel takes: (2) when the lookup of
the subdirectory fails with not-exist, `DeleteAll` returns no error and leaves
the state as it is; (3) when it fails with `ENOTDIR`, the path running through
a regular file, `DeleteAll` returns `ENOTDIR` and leaves the state as it is.
(4) When `BasePath` and `subDir` are both empty, `DeleteAll` returns no error
and leaves the state as it is. -/
theorem deleteAll_removes (basePath subDir : String) (s : Disk) :
    (((osStore basePath).DeleteAll subDir s).1 = none →
      (∀ d q, resolve (filepath.Join [basePath, subDir]) = .ok d → d <+: q →
        lookupAt q ((osStore basePath).DeleteAll subDir s).2 = none) ∧
      (∀ f d q, resolve (filepath.Join [basePath, subDir]) = .ok d →
        resolve (filepath.Join [basePath, subDir, f]) = .ok q → d <+: q →
        ((osStore basePath).Exists subDir f
          ((osStore basePath).DeleteAll subDir s).2).1.1 = false) ∧
      (∀ f, (basePath ≠ "" ∨ subDir ≠ "") → (∀ e ∈ pathElems f, e ≠ "..") →
        ((osStore basePath).Exists subDir f
          ((osStore basePath).DeleteAll subDir s).2).1.1 = false) ∧
      (∃ e, ((osStore basePath).ListFiles subDir ""
          ((osStore basePath).DeleteAll subDir s).2).1 = .error e)) ∧
    (os.validName (filepath.Join [basePath, subDir]) = true →
      nodeAt (filepath.Join [basePath, subDir]) s = .error .ENOENT →
      (osStore basePath).DeleteAll subDir s = (none, s)) ∧
    (os.validName (filepath.Join [basePath, subDir]) = true →
      nodeAt (filepath.Join [basePath, subDir]) s = .error .ENOTDIR →
      (osStore basePath).DeleteAll subDir s = (some .ENOTDIR, s)) ∧
    (basePath = "" → subDir = "" → (osStore basePath).DeleteAll subDir s = (none, s)) := by
  rw [osStore_deleteAll_eq]
  have hdot : (pathElems (filepath.Join [basePath, subDir])).getLast? = some "." →
      resolve (filepath.Join [basePath, subDir]) = .ok [] := by
    intro hd
    rcases Join_eq_empty_or_Clean [basePath, subDir] with he | ⟨y, hy⟩
    · rw [he] at hd; exact absurd hd (by decide)
    · rw [hy] at hd ⊢
      exact Clean_last_dot y hd
  refine ⟨?_, ?_, ?_, ?_⟩
  · intro h
    cases hr : OsFs.RemoveAll (filepath.Join [basePath, subDir]) s with
    | mk r s1 =>
      rw [hr] at h
      dsimp only at h
      subst h
      dsimp only
      have below : ∀ d q, resolve (filepath.Join [basePath, subDir]) = .ok d → d <+: q →
          ∃ e, findAt q s1 = .error e := by
        intro d q hd hq
        rcases removeAll_spec _ s s1 hr with ⟨he, _⟩ | ⟨p, hp, e, hf⟩
        · rw [he] at hd; simp [resolve] at hd
        · rw [hp] at hd
          simp only [Except.ok.injEq] at hd
          subst hd
          obtain ⟨t, ht⟩ := hq
          subst ht
          rw [findAt_append, hf]
          exact ⟨e, rfl⟩
      have ex : ∀ f d q, resolve (filepath.Join [basePath, subDir]) = .ok d →
          resolve (filepath.Join [basePath, subDir, f]) = .ok q → d <+: q →
          ((osStore basePath).Exists subDir f s1).1.1 = false := by
        intro f d q hd hq hdq
        obtain ⟨e, he⟩ := below d q hd hdq
        have hn : nodeAt (filepath.Join [basePath, subDir, f]) s1 = .error e := by
          unfold nodeAt; rw [hq]; exact he
        rw [osStore_exists_eq, hn]
        dsimp only
        split <;> rfl
      refine ⟨?_, ex, ?_, ?_⟩
      · intro d q hd hq
        obtain ⟨e, he⟩ := below d q hd hq
        unfold lookupAt; rw [he]
      · intro f hne hf
        obtain ⟨d, t, hd, hq⟩ := resolve_Join_under basePath subDir f hne hf
        exact ex f d (d ++ t) hd hq (List.prefix_append d t)
      · have hn : ∃ e, nodeAt (filepath.Join [basePath, subDir]) s1 = .error e := by
          rcases removeAll_spec _ s s1 hr with ⟨he, _⟩ | ⟨p, hp, e, hf⟩
          · rw [he]; exact ⟨.ENOENT, rfl⟩
          · exact ⟨e, by unfold nodeAt; rw [hp]; exact hf⟩
        obtain ⟨e, he⟩ := hn
        rw [osStore_listFiles_eq, he]
        exact ⟨e, rfl⟩
  · intro _ h
    rw [removeAll_absent _ s _ h hdot]
    rfl
  · intro _ h
    rw [removeAll_absent _ s _ h hdot]
    rfl
  · intro hb hs
    subst hb hs
    rfl

/-- C7, amended, at a subdirectory with a file two levels down, at a
subdirectory that does not exist, and at a subdirectory below a regular
file. -/
theorem deleteAll_removes_witness :
    ((osStore "/r").DeleteAll "sub" ((osStore "/r").Write "sub/deep" "x" [1] []).2).1 = none ∧
    lookupAt ["r", "sub", "deep", "x"]
      ((osStore "/r").DeleteAll "sub" ((osStore "/r").Write "sub/deep" "x" [1] []).2).2 = none ∧
    ((osStore "/r").Exists "sub" "deep/x"
      ((osStore "/r").DeleteAll "sub" ((osStore "/r").Write "sub/deep" "x" [1] []).2).2).1.1 =
        false ∧
    (osStore "/r").DeleteAll "nope" [("r", .dir [])] = (none, [("r", .dir [])]) ∧
    (osStore "/r").DeleteAll "f/x" [("r", .dir [("f", .file [1])])] =
      (some .ENOTDIR, [("r", .dir [("f", .file [1])])]) :=
  have w := (deleteAll_removes "/r" "sub" ((osStore "/r").Write "sub/deep" "x" [1] []).2).1
    (by decide)
  ⟨by decide, w.1 ["r", "sub"] ["r", "sub", "deep", "x"] rfl ⟨["deep", "x"], rfl⟩,
    w.2.2.1 "deep/x" (Or.inl (by decide)) (by decide),
    (deleteAll_removes "/r" "nope" [("r", .dir [])]).2.1 (by decide) rfl,
    (deleteAll_removes "/r" "f/x" [("r", .dir [("f", .file [1])])]).2.2.1 (by decide) rfl⟩

/-- C2 fails as stated: with base `/data` existing and empty, no file exists at
`Join("/data", "cache", "index")`, and `CreateFile("cache", "index")` returns
`ENOENT` and creates no file, because the directory `cache` is missing. -/
theorem createFile_missing_dir_counterexample :
    contentAt (filepath.Join ["/data", "cache", "index"]) [("data", .dir [])] = none ∧
    ((osStore "/data").CreateFile "cache" "index" [("data", .dir [])]).1 = some .ENOENT ∧
    contentAt (filepath.Join ["/data", "cache", "index"])
      ((osStore "/data").CreateFile "cache" "index" [("data", .dir [])]).2 = none := by
  decide

/-- C2, amended: with `p` the resolved joined path, (1) when a regular file with
content `c` is at `p`, `CreateFile` returns no error and leaves the state as it
is; (2) when the joined name is one the kernel takes (`os.validName`), nothing
is at `p` and the containing directory exists, `CreateFile` returns no error
and a zero-length file is at `p` afterwards; (3) when the joined name is one
the kernel takes, nothing is at `p` and the containing directory does not
exist, `CreateFile` returns the error of the lookup (`ENOENT` or `ENOTDIR`) and
leaves the state as it is; (4) after a `Write` that returned no error,
`CreateFile` returns no error, changes nothing, and the file still holds the
data written. -/
theorem createFile_keeps_or_creates (basePath subDir fileName : String) (s : Disk) (p : Path)
    (hp : resolve (filepath.Join [basePath, subDir, fileName]) = .ok p) :
    (∀ c, fileAt p s = some c → (osStore basePath).CreateFile subDir fileName s = (none, s)) ∧
    (os.validName (filepath.Join [basePath, subDir, fileName]) = true →
      lookupAt p s = none → isDirAt p.dropLast s = true →
      ((osStore basePath).CreateFile subDir fileName s).1 = none ∧
      fileAt p ((osStore basePath).CreateFile subDir fileName s).2 = some []) ∧
    (os.validName (filepath.Join [basePath, subDir, fileName]) = true →
      lookupAt p s = none → isDirAt p.dropLast s = false →
      ∃ e, (e = .ENOENT ∨ e = .ENOTDIR) ∧
        (osStore basePath).CreateFile subDir fileName s = (some e, s)) ∧
    (∀ data, ((osStore basePath).Write subDir fileName data s).1 = none →
      (osStore basePath).CreateFile subDir fileName
          ((osStore basePath).Write subDir fileName data s).2 =
        (none, ((osStore basePath).Write subDir fileName data s).2) ∧
      fileAt p ((osStore basePath).Write subDir fileName data s).2 = some data) := by
  have hn : ∀ t, nodeAt (filepath.Join [basePath, subDir, fileName]) t = findAt p t := by
    intro t; unfold nodeAt; rw [hp]
  have habs : lookupAt p s = none → ∃ e, findAt p s = .error e := by
    intro h
    unfold lookupAt at h
    cases hf : findAt p s with
    | error e => exact ⟨e, rfl⟩
    | ok n => rw [hf] at h; simp at h
  refine ⟨?_, ?_, ?_, ?_⟩
  · intro c hc
    unfold fileAt at hc
    cases hf : findAt p s with
    | error e => rw [hf] at hc; simp at hc
    | ok n => exact osStore_createFile_of_found _ _ _ s n (by rw [hn, hf])
  · intro _ hl hd
    obtain ⟨e, he⟩ := habs hl
    obtain ⟨f, s1, hc, hfile, _⟩ := (create_spec _ p s hp).1 e he hd
    rw [osStore_createFile_of_absent _ _ _ s e (by rw [hn, he]), hc]
    exact ⟨rfl, by unfold fileAt; rw [hfile]⟩
  · intro _ hl hd
    obtain ⟨e, he⟩ := habs hl
    refine ⟨e, findAt_error_cases p s e he, ?_⟩
    rw [osStore_createFile_of_absent _ _ _ s e (by rw [hn, he]),
      (create_spec _ p s hp).2 e he hd]
  · intro data hw
    cases hm : OsFs.MkdirAll (filepath.Join [basePath, subDir]) 0o755 s with
    | mk r s1 =>
      cases r with
      | some err =>
        rw [osStore_write_of_mkdir_error _ _ _ _ _ _ _ hm] at hw
        simp at hw
      | none =>
        rw [osStore_write_of_mkdir_ok _ _ _ _ _ _ hm] at hw ⊢
        cases hwf : afero.WriteFile afero.NewOsFs
            (filepath.Join [basePath, subDir, fileName]) data 0o644 s1 with
        | mk r2 s2 =>
          rw [hwf] at hw
          dsimp only at hw
          subst hw
          obtain ⟨q, hq, hfind, _, _⟩ := (writeFile_spec _ data 0o644 s1).2 s2 hwf
          rw [hp] at hq
          simp only [Except.ok.injEq] at hq
          subst hq
          dsimp only
          exact ⟨osStore_createFile_of_found _ _ _ s2 _ (by rw [hn, hfind]),
            by unfold fileAt; rw [hfind]⟩

/-- C2, amended, at a file that holds `hi`, which `CreateFile` leaves as it
is, and at a missing file of an existing directory, which it creates empty. -/
theorem createFile_keeps_or_creates_witness :
    (fileAt ["r", "logs", "x.log"]
        [("r", .dir [("logs", .dir [("x.log", .file [104, 105])])])] = some [104, 105] ∧
      (osStore "/r").CreateFile "logs" "x.log"
          [("r", .dir [("logs", .dir [("x.log", .file [104, 105])])])] =
        (none, [("r", .dir [("logs", .dir [("x.log", .file [104, 105])])])])) ∧
    (os.validName (filepath.Join ["/r", "logs", "y.log"]) = true ∧
      ((osStore "/r").CreateFile "logs" "y.log" [("r", .dir [("logs", .dir [])])]).1 = none ∧
      fileAt ["r", "logs", "y.log"]
        ((osStore "/r").CreateFile "logs" "y.log" [("r", .dir [("logs", .dir [])])]).2 =
          some []) :=
  ⟨⟨by decide, (createFile_keeps_or_creates "/r" "logs" "x.log"
      [("r", .dir [("logs", .dir [("x.log", .file [104, 105])])])] ["r", "logs", "x.log"]
        rfl).1 [104, 105] (by decide)⟩,
    ⟨by decide, (createFile_keeps_or_creates "/r" "logs" "y.log"
      [("r", .dir [("logs", .dir [])])] ["r", "logs", "y.log"] rfl).2.1 (by decide) rfl
        (by decide)⟩⟩

/-- C6 fails as stated: `NewFileStore("/srv/store")` on an empty disk gives a
store whose base directory is new and empty, and on it
`CreateFile("a", "f.txt")` returns `ENOENT`, after which
`Exists("a", "f.txt")` is false and `ListFiles("a", "f")` fails. -/
theorem createFile_fresh_store_counterexample :
    ∃ fs s, NewFileStore "/srv/store" [] = (.ok fs, s) ∧
      lookupAt ["srv", "store"] s = some (.dir []) ∧
      (fs.CreateFile "a" "f.txt" s).1 = some .ENOENT ∧
      (fs.Exists "a" "f.txt" (fs.CreateFile "a" "f.txt" s).2).1 = (false, none) ∧
      (fs.ListFiles "a" "f" (fs.CreateFile "a" "f.txt" s).2).1 = .error .ENOENT :=
  ⟨osStore "/srv/store", [("srv", .dir [("store", .dir [])])], rfl, rfl, by decide, by decide,
    rfl⟩

/-- C6, amended: let `NewFileStore(basePath)` return a store, and let `b` be the
resolved base path.  When the base directory is empty, as on a fresh store,
`CreateFile("a", "f.txt")` returns `ENOENT` and leaves the state as it is, and
`Exists("a", "f.txt")` is false.  In every state in which the subdirectory `a`
of the base directory exists and is empty, `CreateFile("a", "f.txt")` returns
no error, after which `Exists("a", "f.txt")` returns true and
`ListFiles("a", "f")` returns `["f.txt"]`. -/
theorem createFile_needs_subdir (basePath : String) (s0 s : Disk) (fs : FileStore Disk OsFile)
    (hnew : NewFileStore basePath s0 = (.ok fs, s)) :
    ∃ b, resolve basePath = .ok b ∧
      (findAt b s = .ok (.dir []) →
        fs.CreateFile "a" "f.txt" s = (some .ENOENT, s) ∧
        (fs.Exists "a" "f.txt" s).1 = (false, none)) ∧
      (∀ s1, findAt (b ++ ["a"]) s1 = .ok (.dir []) →
        (fs.CreateFile "a" "f.txt" s1).1 = none ∧
        (fs.Exists "a" "f.txt" (fs.CreateFile "a" "f.txt" s1).2).1 = (true, none) ∧
        (fs.ListFiles "a" "f" (fs.CreateFile "a" "f.txt" s1).2).1 = .ok ["f.txt"]) := by
  obtain ⟨hfs, b, hb, _⟩ := newFileStore_ok basePath s0 s fs hnew
  subst hfs
  have hreal : ∀ e ∈ ["a", "f.txt"], realElem e ∧ '/' ∉ e.data := by decide
  have hreal1 : ∀ e ∈ ["a"], realElem e ∧ '/' ∉ e.data := by decide
  have hp := resolve_Join_real basePath b hb ["a", "f.txt"] hreal
  have hq := resolve_Join_real basePath b hb ["a"] hreal1
  have hn : ∀ t, nodeAt (filepath.Join [basePath, "a", "f.txt"]) t =
      findAt (b ++ ["a", "f.txt"]) t := by
    intro t; unfold nodeAt; rw [hp]
  have hdl : (b ++ ["a", "f.txt"]).dropLast = b ++ ["a"] := by
    rw [show b ++ ["a", "f.txt"] = (b ++ ["a"]) ++ ["f.txt"] by simp, List.dropLast_concat]
  refine ⟨b, hb, ?_, ?_⟩
  · intro hfresh
    have hf : findAt (b ++ ["a", "f.txt"]) s = .error .ENOENT := by
      rw [findAt_append, hfresh]; rfl
    have hd : isDirAt (b ++ ["a", "f.txt"]).dropLast s = false := by
      rw [hdl]; unfold isDirAt; rw [findAt_append, hfresh]; rfl
    refine ⟨?_, ?_⟩
    · rw [osStore_createFile_of_absent _ _ _ s _ (by rw [hn, hf]),
        (create_spec _ _ s hp).2 _ hf hd]
    · rw [osStore_exists_eq, hn, hf]; rfl
  · intro s1 ha
    have hf : findAt (b ++ ["a", "f.txt"]) s1 = .error .ENOENT := by
      rw [show b ++ ["a", "f.txt"] = (b ++ ["a"]) ++ ["f.txt"] by simp, findAt_append, ha]; rfl
    have hd : isDirAt (b ++ ["a", "f.txt"]).dropLast s1 = true := by
      rw [hdl]; unfold isDirAt; rw [ha]
    obtain ⟨f, s2, hc, hfile, hpar⟩ := (create_spec _ _ s1 hp).1 _ hf hd
    have hdir := hpar [] "f.txt" (by rw [hdl]; simp) (by rw [hdl]; exact ha)
    rw [hdl] at hdir
    rw [osStore_createFile_of_absent _ _ _ s1 _ (by rw [hn, hf]), hc]
    dsimp only
    refine ⟨rfl, ?_, ?_⟩
    · rw [osStore_exists_eq, hn, hfile]
    · rw [osStore_listFiles_eq]
      have : nodeAt (filepath.Join [basePath, "a"]) s2 =
          .ok (.dir (setEntry [] "f.txt" (.file []))) := by
        unfold nodeAt; rw [hq]; exact hdir
      rw [this]
      rfl

/-- C6, amended, at `NewFileStore("/srv/store")` on an empty disk, and at the
state in which the subdirectory `a` has been made. -/
theorem createFile_needs_subdir_witness :
    ((osStore "/srv/store").CreateFile "a" "f.txt" [("srv", .dir [("store", .dir [])])]).1 =
      some .ENOENT ∧
    ((osStore "/srv/store").CreateFile "a" "f.txt"
      [("srv", .dir [("store", .dir [("a", .dir [])])])]).1 = none ∧
    ((osStore "/srv/store").ListFiles "a" "f"
      ((osStore "/srv/store").CreateFile "a" "f.txt"
        [("srv", .dir [("store", .dir [("a", .dir [])])])]).2).1 = .ok ["f.txt"] := by
  obtain ⟨b, hb, h1, h2⟩ := createFile_needs_subdir "/srv/store" []
    [("srv", .dir [("store", .dir [])])] (osStore "/srv/store") rfl
  have hb2 : resolve "/srv/store" = .ok ["srv", "store"] := rfl
  rw [hb2] at hb
  simp only [Except.ok.injEq] at hb
  subst hb
  have k2 := h2 [("srv", .dir [("store", .dir [("a", .dir [])])])] rfl
  exact ⟨by rw [(h1 rfl).1], k2.1, k2.2.2⟩

/-- C10: after `Write(subDir, fileName, data)`, whether it succeeded or failed,
(1) every path other than the resolved joined path of the file holds a regular
file exactly if it did before, with the same content; (2) every directory is
still a directory; (3) a directory that is new stands where nothing was, on the
resolved path of `Join(BasePath, subDir)`; (4) when `MkdirAll` fails, `Write`
returns that error and the state is as it was, the target file included. -/
theorem write_frame (basePath subDir fileName : String) (data : Bytes) (s : Disk) :
    (∀ q, resolve (filepath.Join [basePath, subDir, fileName]) ≠ .ok q →
      fileAt q ((osStore basePath).Write subDir fileName data s).2 = fileAt q s) ∧
    (∀ q, isDirAt q s = true →
      isDirAt q ((osStore basePath).Write subDir fileName data s).2 = true) ∧
    (∀ q, isDirAt q ((osStore basePath).Write subDir fileName data s).2 = true →
      isDirAt q s = false →
      lookupAt q s = none ∧
        ∃ d, resolve (filepath.Join [basePath, subDir]) = .ok d ∧ q <+: d) ∧
    (∀ e s1, OsFs.MkdirAll (filepath.Join [basePath, subDir]) 0o755 s = (some e, s1) →
      (osStore basePath).Write subDir fileName data s = (some e, s)) := by
  obtain ⟨m1, m2⟩ := mkdirAll_spec (filepath.Join [basePath, subDir]) 0o755 s
  cases hm : OsFs.MkdirAll (filepath.Join [basePath, subDir]) 0o755 s with
  | mk r s1 =>
    cases r with
    | some err =>
      have hs := m1 err s1 hm
      subst hs
      rw [osStore_write_of_mkdir_error _ _ _ _ _ _ _ hm]
      refine ⟨fun q _ => rfl, fun q h => h, ?_, ?_⟩
      · intro q h1 h2; dsimp only at h1; rw [h1] at h2; simp at h2
      · intro e s2 h
        simp only [Prod.mk.injEq, Option.some.injEq] at h
        rw [h.1]
    | none =>
      obtain ⟨d, hd, hmk⟩ := m2 s1 hm
      obtain ⟨_, hframe⟩ := mkdirAllAt_spec d s s1 hmk
      rw [osStore_write_of_mkdir_ok _ _ _ _ _ _ hm]
      obtain ⟨w1, w2⟩ := writeFile_spec (filepath.Join [basePath, subDir, fileName]) data
        0o644 s1
      have step : (∀ q, resolve (filepath.Join [basePath, subDir, fileName]) ≠ .ok q →
            fileAt q (afero.WriteFile afero.NewOsFs
              (filepath.Join [basePath, subDir, fileName]) data 0o644 s1).2 = fileAt q s1) ∧
          (∀ q, isDirAt q (afero.WriteFile afero.NewOsFs
              (filepath.Join [basePath, subDir, fileName]) data 0o644 s1).2 = isDirAt q s1) := by
        cases hwf : afero.WriteFile afero.NewOsFs
            (filepath.Join [basePath, subDir, fileName]) data 0o644 s1 with
        | mk r2 s2 =>
          cases r2 with
          | some e2 =>
            have := w1 e2 s2 hwf
            subst this
            exact ⟨fun q _ => rfl, fun q => rfl⟩
          | none =>
            obtain ⟨p, hp, _, _, hfr⟩ := w2 s2 hwf
            refine ⟨?_, fun q => (hfr q).2⟩
            intro q hq
            apply (hfr q).1
            intro hqp
            apply hq
            rw [hp, hqp]
      refine ⟨?_, ?_, ?_, ?_⟩
      · intro q hq
        rw [step.1 q hq, (hframe q).1]
      · intro q hq
        rw [step.2 q]
        exact (hframe q).2.1 hq
      · intro q h1 h2
        rw [step.2 q] at h1
        obtain ⟨k1, k2⟩ := (hframe q).2.2 h1 h2
        exact ⟨k1, d, hd, k2⟩
      · intro e s2 h
        simp at h

/-- C10 at a `Write` next to another file: the other file keeps its content and
the directory `logs` is the only new one. -/
theorem write_frame_witness :
    fileAt ["r", "y"] ((osStore "/r").Write "logs" "x.log" [1, 2] [("r", .dir [("y", .file [7])])]).2 =
      fileAt ["r", "y"] [("r", .dir [("y", .file [7])])] ∧
    (lookupAt ["r", "logs"] [("r", .dir [("y", .file [7])])] = none ∧
      ∃ d, resolve (filepath.Join ["/r", "logs"]) = .ok d ∧ ["r", "logs"] <+: d) :=
  have w := write_frame "/r" "logs" "x.log" [1, 2] [("r", .dir [("y", .file [7])])]
  ⟨w.1 ["r", "y"] (by
      intro h
      have h2 : resolve (filepath.Join ["/r", "logs", "x.log"]) = .ok ["r", "logs", "x.log"] := rfl
      rw [h2] at h
      simp at h),
    w.2.2.1 ["r", "logs"] (by decide) (by decide)⟩

/-- C3: when a directory with entries `es` is at `Join(BasePath, subDir)`,
`afero.ReadDir` returns a listing `files` and `ListFiles(subDir, partialName)`
returns `names` with no error, where: `names` is the list of the names of
`files` with those that do not contain `partialName` left out, so in the order
of the listing; the names of `files` are exactly the names of the entries of
the directory, each once; a name is in `names` exactly if it is the name of an
entry and `partialName` is a contiguous part of it, character by character, and
it is there once; and with `partialName` empty `names` is every name of the
listing. -/
theorem listFiles_spec (basePath subDir partialName : String) (s : Disk) (es : Entries)
    (hdir : nodeAt (filepath.Join [basePath, subDir]) s = .ok (.dir es)) :
    ∃ files names,
      afero.ReadDir afero.NewOsFs (filepath.Join [basePath, subDir]) s = (.ok files, s) ∧
      (osStore basePath).ListFiles subDir partialName s = (.ok names, s) ∧
      names = (files.map (fun file => file.Name)).filter
        (fun n => strings.Contains n partialName) ∧
      (∀ n, n ∈ files.map (fun file => file.Name) ↔ (getEntry es n).isSome = true) ∧
      (files.map (fun file => file.Name)).Nodup ∧
      (∀ n, n ∈ names ↔ (getEntry es n).isSome = true ∧ partialName.data <:+: n.data) ∧
      names.Nodup ∧
      (partialName = "" → names = files.map (fun file => file.Name)) := by
  have hperm := dirListing_names_perm es
  have hmem : ∀ n, n ∈ (dirListing es).map (fun file => file.Name) ↔
      (getEntry es n).isSome = true := by
    intro n
    rw [hperm.mem_iff, mem_listEntries]
    simp
  have hnd : ((dirListing es).map (fun file => file.Name)).Nodup :=
    hperm.nodup_iff.2 (nodup_listEntries es [])
  have hnames : listedNames es partialName =
      ((dirListing es).map (fun file => file.Name)).filter
        (fun n => strings.Contains n partialName) := by
    unfold listedNames
    rw [List.filter_map]
    rfl
  refine ⟨dirListing es, listedNames es partialName, ?_, ?_, hnames, hmem, hnd, ?_, ?_, ?_⟩
  · rw [readDir_eq, hdir]
  · rw [osStore_listFiles_eq, hdir]
  · intro n
    rw [hnames, List.mem_filter, hmem, strings_Contains_iff]
  · rw [hnames]
    exact hnd.filter _
  · intro hp
    rw [hnames, hp, List.filter_eq_self]
    intro n _
    exact strings_Contains_empty n

/-- C3 at the example of the specification: a directory holding `b.txt`,
`a.txt` and `ab.txt`, listed for `a`, gives `a.txt` and `ab.txt`; listed for
the empty string it gives all three names, and listed for `A` none. -/
theorem listFiles_spec_witness :
    ((osStore "/r").ListFiles "d" "a" [("r", .dir [("d", .dir
      [("b.txt", .file []), ("a.txt", .file [1]), ("ab.txt", .dir [])])])]).1 =
        .ok ["a.txt", "ab.txt"] ∧
    ((osStore "/r").ListFiles "d" "" [("r", .dir [("d", .dir
      [("b.txt", .file []), ("a.txt", .file [1]), ("ab.txt", .dir [])])])]).1 =
        .ok ["a.txt", "ab.txt", "b.txt"] ∧
    ((osStore "/r").ListFiles "d" "A" [("r", .dir [("d", .dir
      [("b.txt", .file []), ("a.txt", .file [1]), ("ab.txt", .dir [])])])]).1 = .ok [] ∧
    ∃ files names,
      afero.ReadDir afero.NewOsFs (filepath.Join ["/r", "d"]) [("r", .dir [("d", .dir
        [("b.txt", .file []), ("a.txt", .file [1]), ("ab.txt", .dir [])])])] =
          (.ok files, [("r", .dir [("d", .dir
            [("b.txt", .file []), ("a.txt", .file [1]), ("ab.txt", .dir [])])])]) ∧
      (osStore "/r").ListFiles "d" "a" [("r", .dir [("d", .dir
        [("b.txt", .file []), ("a.txt", .file [1]), ("ab.txt", .dir [])])])] =
          (.ok names, [("r", .dir [("d", .dir
            [("b.txt", .file []), ("a.txt", .file [1]), ("ab.txt", .dir [])])])]) ∧
      names = (files.map (fun file => file.Name)).filter (fun n => strings.Contains n "a") ∧
      names.Nodup :=
  have w := listFiles_spec "/r" "d" "a" [("r", .dir [("d", .dir
    [("b.txt", .file []), ("a.txt", .file [1]), ("ab.txt", .dir [])])])]
    [("b.txt", .file []), ("a.txt", .file [1]), ("ab.txt", .dir [])] rfl
  ⟨rfl, rfl, rfl, match w with
    | ⟨files, names, h1, h2, h3, _, _, _, h7, _⟩ => ⟨files, names, h1, h2, h3, h7⟩⟩

/-- C9 fails as stated: with base `/r` and a regular file `/r/f`, the existence
check inside `Read("f", "x")` fails with `ENOTDIR`, which is not a not-exist
error, and `Read` returns the not-found error it builds itself instead of
`ENOTDIR`. -/
theorem read_drops_check_error_counterexample :
    (afero.NewOsFs.Stat (filepath.Join ["/r", "f", "x"]) [("r", .dir [("f", .file [1])])]).1 =
      .error .ENOTDIR ∧
    os.IsNotExist .ENOTDIR = false ∧
    ((osStore "/r").Read "f" "x" [("r", .dir [("f", .file [1])])]).1 =
      (none, some errNotFound) ∧
    errNotFound ≠ .ENOTDIR :=
  ⟨rfl, rfl, by decide, by decide⟩

section PassThrough

variable {σ φ : Type}

/-- C9, amended: for every filesystem behind the store and every state, the
result of each operation is fixed by the results of the underlying calls as
follows, case by case and with no case left out.
`Delete` and `DeleteAll` return what `Remove` and `RemoveAll` return.
`Exists` returns true with no error when `Stat` succeeds, false with no error
when `Stat` fails with not-exist, and false with the error of `Stat` otherwise.
`Write` returns the error of `MkdirAll`; else that of `OpenFile`; else that of
the write; else `io.ErrShortWrite` when fewer bytes were written than given;
else what `Close` returns.
`Read` returns the not-found error it builds itself when `Stat` fails, with
whatever error (the error of the check is dropped); else the error of `Open`;
else the bytes and the error of the read (the error of `Close` is dropped).
`CreateFile` returns no error when `Stat` succeeds; when `Stat` fails, with
whatever error, it returns the error of `Create`, or no error when `Create`
succeeds.
`ListFiles` returns the error of `Open`; else that of `Readdir`; else the names
of the sorted listing that contain `partialName`, with no error.
`CopyFile` returns the error of `MkdirAll`; else that of `Open`; else that of
`Create`; else, when the read gave no bytes, the error of the read or none;
else the error of the write; else `io.ErrShortWrite` when the write was short;
else the error of the read, also after a partial read, or none (the errors of
both `Close` calls are dropped).
So the only error built by the store is the not-found error of `Read`, returned
exactly when the existence check fails; `io.ErrShortWrite` comes from
`afero.WriteFile` and `io.Copy`; every other error is the unchanged error of an
underlying call. -/
theorem errors_passed_through (fs : FileStore σ φ) (s : σ) :
    -- Delete, DeleteAll
    (∀ subDir fileName, fs.Delete subDir fileName s =
      fs.Fs.Remove (filepath.Join [fs.BasePath, subDir, fileName]) s) ∧
    (∀ subDir, fs.DeleteAll subDir s =
      fs.Fs.RemoveAll (filepath.Join [fs.BasePath, subDir]) s) ∧
    -- Exists
    (∀ subDir fileName i s1,
      fs.Fs.Stat (filepath.Join [fs.BasePath, subDir, fileName]) s = (.ok i, s1) →
      fs.Exists subDir fileName s = ((true, none), s1)) ∧
    (∀ subDir fileName e s1,
      fs.Fs.Stat (filepath.Join [fs.BasePath, subDir, fileName]) s = (.error e, s1) →
      os.IsNotExist e = true → fs.Exists subDir fileName s = ((false, none), s1)) ∧
    (∀ subDir fileName e s1,
      fs.Fs.Stat (filepath.Join [fs.BasePath, subDir, fileName]) s = (.error e, s1) →
      os.IsNotExist e = false → fs.Exists subDir fileName s = ((false, some e), s1)) ∧
    -- Write
    (∀ subDir fileName data e s1,
      fs.Fs.MkdirAll (filepath.Join [fs.BasePath, subDir]) 0o755 s = (some e, s1) →
      fs.Write subDir fileName data s = (some e, s1)) ∧
    (∀ subDir fileName data e s1 s2,
      fs.Fs.MkdirAll (filepath.Join [fs.BasePath, subDir]) 0o755 s = (none, s1) →
      fs.Fs.OpenFile (filepath.Join [fs.BasePath, subDir, fileName]) os.O_WRONLY_CREATE_TRUNC
        0o644 s1 = (.error e, s2) →
      fs.Write subDir fileName data s = (some e, s2)) ∧
    (∀ subDir fileName data f n e c s1 s2 s3 s4,
      fs.Fs.MkdirAll (filepath.Join [fs.BasePath, subDir]) 0o755 s = (none, s1) →
      fs.Fs.OpenFile (filepath.Join [fs.BasePath, subDir, fileName]) os.O_WRONLY_CREATE_TRUNC
        0o644 s1 = (.ok f, s2) →
      fs.Fs.Write f data s2 = ((n, some e), s3) →
      fs.Fs.Close f s3 = (c, s4) →
      fs.Write subDir fileName data s = (some e, s4)) ∧
    (∀ subDir fileName data f n c s1 s2 s3 s4,
      fs.Fs.MkdirAll (filepath.Join [fs.BasePath, subDir]) 0o755 s = (none, s1) →
      fs.Fs.OpenFile (filepath.Join [fs.BasePath, subDir, fileName]) os.O_WRONLY_CREATE_TRUNC
        0o644 s1 = (.ok f, s2) →
      fs.Fs.Write f data s2 = ((n, none), s3) → n < data.length →
      fs.Fs.Close f s3 = (c, s4) →
      fs.Write subDir fileName data s = (some .ErrShortWrite, s4)) ∧
    (∀ subDir fileName data f n c s1 s2 s3 s4,
      fs.Fs.MkdirAll (filepath.Join [fs.BasePath, subDir]) 0o755 s = (none, s1) →
      fs.Fs.OpenFile (filepath.Join [fs.BasePath, subDir, fileName]) os.O_WRONLY_CREATE_TRUNC
        0o644 s1 = (.ok f, s2) →
      fs.Fs.Write f data s2 = ((n, none), s3) → data.length ≤ n →
      fs.Fs.Close f s3 = (c, s4) →
      fs.Write subDir fileName data s = (c, s4)) ∧
    -- Read
    (∀ subDir fileName e s1,
      fs.Fs.Stat (filepath.Join [fs.BasePath, subDir, fileName]) s = (.error e, s1) →
      fs.Read subDir fileName s = ((none, some errNotFound), s1)) ∧
    (∀ subDir fileName i e s1 s2,
      fs.Fs.Stat (filepath.Join [fs.BasePath, subDir, fileName]) s = (.ok i, s1) →
      fs.Fs.Open (filepath.Join [fs.BasePath, subDir, fileName]) s1 = (.error e, s2) →
      fs.Read subDir fileName s = ((none, some e), s2)) ∧
    (∀ subDir fileName i f b r c s1 s2 s3 s4,
      fs.Fs.Stat (filepath.Join [fs.BasePath, subDir, fileName]) s = (.ok i, s1) →
      fs.Fs.Open (filepath.Join [fs.BasePath, subDir, fileName]) s1 = (.ok f, s2) →
      fs.Fs.ReadToEOF f s2 = ((b, r), s3) →
      fs.Fs.Close f s3 = (c, s4) →
      fs.Read subDir fileName s = ((some b, r), s4)) ∧
    -- CreateFile
    (∀ subDir fileName i s1,
      fs.Fs.Stat (filepath.Join [fs.BasePath, subDir, fileName]) s = (.ok i, s1) →
      fs.CreateFile subDir fileName s = (none, s1)) ∧
    (∀ subDir fileName e e2 s1 s2,
      fs.Fs.Stat (filepath.Join [fs.BasePath, subDir, fileName]) s = (.error e, s1) →
      fs.Fs.Create (filepath.Join [fs.BasePath, subDir, fileName]) s1 = (.error e2, s2) →
      fs.CreateFile subDir fileName s = (some e2, s2)) ∧
    (∀ subDir fileName e f s1 s2,
      fs.Fs.Stat (filepath.Join [fs.BasePath, subDir, fileName]) s = (.error e, s1) →
      fs.Fs.Create (filepath.Join [fs.BasePath, subDir, fileName]) s1 = (.ok f, s2) →
      fs.CreateFile subDir fileName s = (none, s2)) ∧
    -- ListFiles
    (∀ subDir partialName e s1,
      fs.Fs.Open (filepath.Join [fs.BasePath, subDir]) s = (.error e, s1) →
      fs.ListFiles subDir partialName s = (.error e, s1)) ∧
    (∀ subDir partialName f e c s1 s2 s3,
      fs.Fs.Open (filepath.Join [fs.BasePath, subDir]) s = (.ok f, s1) →
      fs.Fs.Readdir f s1 = (.error e, s2) →
      fs.Fs.Close f s2 = (c, s3) →
      fs.ListFiles subDir partialName s = (.error e, s3)) ∧
    (∀ subDir partialName f list c s1 s2 s3,
      fs.Fs.Open (filepath.Join [fs.BasePath, subDir]) s = (.ok f, s1) →
      fs.Fs.Readdir f s1 = (.ok list, s2) →
      fs.Fs.Close f s2 = (c, s3) →
      fs.ListFiles subDir partialName s =
        (.ok (((list.insertionSort (fun a b => !nameLess b.Name.toList a.Name.toList)).filter
          (fun file => strings.Contains file.Name partialName)).map (fun file => file.Name)),
          s3)) ∧
    -- CopyFile
    (∀ srcFile destFile newFileName e s1,
      fs.Fs.MkdirAll destFile 0o755 s = (some e, s1) →
      fs.CopyFile srcFile destFile newFileName s = (some e, s1)) ∧
    (∀ srcFile destFile newFileName e s1 s2,
      fs.Fs.MkdirAll destFile 0o755 s = (none, s1) →
      fs.Fs.Open (filepath.Join [fs.BasePath, srcFile]) s1 = (.error e, s2) →
      fs.CopyFile srcFile destFile newFileName s = (some e, s2)) ∧
    (∀ srcFile destFile newFileName src e c s1 s2 s3 s4,
      fs.Fs.MkdirAll destFile 0o755 s = (none, s1) →
      fs.Fs.Open (filepath.Join [fs.BasePath, srcFile]) s1 = (.ok src, s2) →
      fs.Fs.Create (filepath.Join [destFile, newFileName]) s2 = (.error e, s3) →
      fs.Fs.Close src s3 = (c, s4) →
      fs.CopyFile srcFile destFile newFileName s = (some e, s4)) ∧
    (∀ srcFile destFile newFileName src dest er c1 c2 s1 s2 s3 s4 s5 s6,
      fs.Fs.MkdirAll destFile 0o755 s = (none, s1) →
      fs.Fs.Open (filepath.Join [fs.BasePath, srcFile]) s1 = (.ok src, s2) →
      fs.Fs.Create (filepath.Join [destFile, newFileName]) s2 = (.ok dest, s3) →
      fs.Fs.ReadToEOF src s3 = (([], er), s4) →
      fs.Fs.Close dest s4 = (c1, s5) → fs.Fs.Close src s5 = (c2, s6) →
      fs.CopyFile srcFile destFile newFileName s = (er, s6)) ∧
    (∀ srcFile destFile newFileName src dest b er nw e c1 c2 s1 s2 s3 s4 s5 s6 s7,
      fs.Fs.MkdirAll destFile 0o755 s = (none, s1) →
      fs.Fs.Open (filepath.Join [fs.BasePath, srcFile]) s1 = (.ok src, s2) →
      fs.Fs.Create (filepath.Join [destFile, newFileName]) s2 = (.ok dest, s3) →
      fs.Fs.ReadToEOF src s3 = ((b, er), s4) → b ≠ [] →
      fs.Fs.Write dest b s4 = ((nw, some e), s5) →
      fs.Fs.Close dest s5 = (c1, s6) → fs.Fs.Close src s6 = (c2, s7) →
      fs.CopyFile srcFile destFile newFileName s = (some e, s7)) ∧
    (∀ srcFile destFile newFileName src dest b er nw c1 c2 s1 s2 s3 s4 s5 s6 s7,
      fs.Fs.MkdirAll destFile 0o755 s = (none, s1) →
      fs.Fs.Open (filepath.Join [fs.BasePath, srcFile]) s1 = (.ok src, s2) →
      fs.Fs.Create (filepath.Join [destFile, newFileName]) s2 = (.ok dest, s3) →
      fs.Fs.ReadToEOF src s3 = ((b, er), s4) → b ≠ [] →
      fs.Fs.Write dest b s4 = ((nw, none), s5) → nw ≠ b.length →
      fs.Fs.Close dest s5 = (c1, s6) → fs.Fs.Close src s6 = (c2, s7) →
      fs.CopyFile srcFile destFile newFileName s = (some .ErrShortWrite, s7)) ∧
    (∀ srcFile destFile newFileName src dest b er nw c1 c2 s1 s2 s3 s4 s5 s6 s7,
      fs.Fs.MkdirAll destFile 0o755 s = (none, s1) →
      fs.Fs.Open (filepath.Join [fs.BasePath, srcFile]) s1 = (.ok src, s2) →
      fs.Fs.Create (filepath.Join [destFile, newFileName]) s2 = (.ok dest, s3) →
      fs.Fs.ReadToEOF src s3 = ((b, er), s4) → b ≠ [] →
      fs.Fs.Write dest b s4 = ((nw, none), s5) → nw = b.length →
      fs.Fs.Close dest s5 = (c1, s6) → fs.Fs.Close src s6 = (c2, s7) →
      fs.CopyFile srcFile destFile newFileName s = (er, s7)) := by
  refine ⟨fun _ _ => rfl, fun _ => rfl, ?_, ?_, ?_, ?_, ?_, ?_, ?_, ?_, ?_, ?_, ?_, ?_, ?_, ?_,
    ?_, ?_, ?_, ?_, ?_, ?_, ?_, ?_, ?_, ?_⟩
  · intro subDir fileName i s1 h
    simp [FileStore.Exists, afero.Exists, h]
  · intro subDir fileName e s1 h he
    simp [FileStore.Exists, afero.Exists, h, he]
  · intro subDir fileName e s1 h he
    simp [FileStore.Exists, afero.Exists, h, he]
  · intro subDir fileName data e s1 h
    simp [FileStore.Write, h]
  · intro subDir fileName data e s1 s2 h1 h2
    simp [FileStore.Write, afero.WriteFile, h1, h2]
  · intro subDir fileName data f n e c s1 s2 s3 s4 h1 h2 h3 h4
    simp [FileStore.Write, afero.WriteFile, h1, h2, h3, h4]
  · intro subDir fileName data f n c s1 s2 s3 s4 h1 h2 h3 hn h4
    simp [FileStore.Write, afero.WriteFile, h1, h2, h3, h4, hn]
  · intro subDir fileName data f n c s1 s2 s3 s4 h1 h2 h3 hn h4
    simp [FileStore.Write, afero.WriteFile, h1, h2, h3, h4, Nat.not_lt.2 hn]
  · intro subDir fileName e s1 h
    by_cases he : os.IsNotExist e = true <;> simp [FileStore.Read, afero.Exists, h, he]
  · intro subDir fileName i e s1 s2 h1 h2
    simp [FileStore.Read, afero.Exists, afero.ReadFile, h1, h2]
  · intro subDir fileName i f b r c s1 s2 s3 s4 h1 h2 h3 h4
    simp [FileStore.Read, afero.Exists, afero.ReadFile, h1, h2, h3, h4]
  · intro subDir fileName i s1 h
    simp [FileStore.CreateFile, afero.Exists, h]
  · intro subDir fileName e e2 s1 s2 h1 h2
    by_cases he : os.IsNotExist e = true <;>
      simp [FileStore.CreateFile, afero.Exists, h1, h2, he]
  · intro subDir fileName e f s1 s2 h1 h2
    by_cases he : os.IsNotExist e = true <;>
      simp [FileStore.CreateFile, afero.Exists, h1, h2, he]
  · intro subDir partialName e s1 h
    simp [FileStore.ListFiles, afero.ReadDir, h]
  · intro subDir partialName f e c s1 s2 s3 h1 h2 h3
    simp [FileStore.ListFiles, afero.ReadDir, h1, h2, h3]
  · intro subDir partialName f list c s1 s2 s3 h1 h2 h3
    simp [FileStore.ListFiles, afero.ReadDir, h1, h2, h3]
  · intro srcFile destFile newFileName e s1 h
    simp [FileStore.CopyFile, h]
  · intro srcFile destFile newFileName e s1 s2 h1 h2
    simp [FileStore.CopyFile, h1, h2]
  · intro srcFile destFile newFileName src e c s1 s2 s3 s4 h1 h2 h3 h4
    simp [FileStore.CopyFile, h1, h2, h3, h4]
  · intro srcFile destFile newFileName src dest er c1 c2 s1 s2 s3 s4 s5 s6 h1 h2 h3 h4 h5 h6
    simp [FileStore.CopyFile, io.Copy, h1, h2, h3, h4, h5, h6]
  · intro srcFile destFile newFileName src dest b er nw e c1 c2 s1 s2 s3 s4 s5 s6 s7
      h1 h2 h3 h4 hb h5 h6 h7
    simp [FileStore.CopyFile, io.Copy, h1, h2, h3, h4, hb, h5, h6, h7]
  · intro srcFile destFile newFileName src dest b er nw c1 c2 s1 s2 s3 s4 s5 s6 s7
      h1 h2 h3 h4 hb h5 hn h6 h7
    simp [FileStore.CopyFile, io.Copy, h1, h2, h3, h4, hb, h5, hn, h6, h7]
  · intro srcFile destFile newFileName src dest b er nw c1 c2 s1 s2 s3 s4 s5 s6 s7
      h1 h2 h3 h4 hb h5 hn h6 h7
    simp [FileStore.CopyFile, io.Copy, h1, h2, h3, h4, hb, h5, hn, h6, h7]

end PassThrough

/-- C9, amended, on `OsFs`: `Write` below a regular file returns the `ENOTDIR`
of `MkdirAll`; `Read` below a regular file, where the existence check fails
with `ENOTDIR`, returns the not-found error; and `Exists` there returns the
`ENOTDIR`. -/
theorem errors_passed_through_witness :
    (osStore "/r").Write "f" "x" [1] [("r", .dir [("f", .file [1])])] =
      (some .ENOTDIR, [("r", .dir [("f", .file [1])])]) ∧
    (osStore "/r").Read "f" "x" [("r", .dir [("f", .file [1])])] =
      ((none, some errNotFound), [("r", .dir [("f", .file [1])])]) ∧
    (osStore "/r").Exists "f" "x" [("r", .dir [("f", .file [1])])] =
      ((false, some .ENOTDIR), [("r", .dir [("f", .file [1])])]) :=
  have w := errors_passed_through (osStore "/r") [("r", .dir [("f", .file [1])])]
  ⟨w.2.2.2.2.2.1 "f" "x" [1] .ENOTDIR _ rfl,
    w.2.2.2.2.2.2.2.2.2.2.1 "f" "x" .ENOTDIR _ rfl,
    w.2.2.2.2.1 "f" "x" .ENOTDIR _ rfl rfl⟩

/-- C4, the code at the failing input: after `Write("logs", "x.log", "hello")`
on base `/r`, `CopyFile("logs/x.log", "/r/logs", "x.log")`, whose destination is
the source file, returns no error and leaves the file empty, while the source
held `hello` before the call. -/
theorem copyFile_onto_source :
    contentAt (filepath.Join ["/r", "logs/x.log"])
      ((osStore "/r").Write "logs" "x.log" [104, 101, 108, 108, 111] []).2 =
        some [104, 101, 108, 108, 111] ∧
    ((osStore "/r").CopyFile "logs/x.log" "/r/logs" "x.log"
      ((osStore "/r").Write "logs" "x.log" [104, 101, 108, 108, 111] []).2).1 = none ∧
    contentAt (filepath.Join ["/r/logs", "x.log"])
      ((osStore "/r").CopyFile "logs/x.log" "/r/logs" "x.log"
        ((osStore "/r").Write "logs" "x.log" [104, 101, 108, 108, 111] []).2).2 = some [] := by
  decide

/-- The scenario of the specification: after `Write("logs", "x.log", "hello")`
on base `/r`, `CopyFile("logs/x.log", "/r/backup", "x.bak")` makes
`/r/backup/x.bak` hold `hello`. -/
theorem copyFile_scenario :
    ((osStore "/r").CopyFile "logs/x.log" "/r/backup" "x.bak"
      ((osStore "/r").Write "logs" "x.log" [104, 101, 108, 108, 111] []).2).1 = none ∧
    contentAt "/r/backup/x.bak"
      ((osStore "/r").CopyFile "logs/x.log" "/r/backup" "x.bak"
        ((osStore "/r").Write "logs" "x.log" [104, 101, 108, 108, 111] []).2).2 =
          some [104, 101, 108, 108, 111] := by
  decide

end Aferos
